import Mathlib

/-!
Verification of the objectpath encoder/decoder and the analysis-driver core
of this repository (the go/analysis "doctor" prototype): a shallow embedding
of the Go sources in Lean 4, with theorems settling the specification claims.

Part 1: the textual side of object paths — `strings.Split` on dots,
`strconv.Atoi`, decimal printing of indices, identifier validation — as
functions on `String`/`List Char`.
-/

namespace Doctor

/-! ## Reserved destructuring tokens (objectpath.go, const block) -/

def opKey : String := "!key"

def opValue : String := "!value"

def opParams : String := "!params"

def opResults : String := "!results"

def opUnderlying : String := "!underlying"

/-! ## validIdent (objectpath.go)

Go checks each rune: underscore, letter, or (not first) digit; then a final
non-empty test. Unicode letter/digit classes are approximated by the ASCII
classes, which is exact on all ASCII identifiers. -/

def isDigitB (c : Char) : Bool := 48 ≤ c.toNat && c.toNat ≤ 57

def isLetterB (c : Char) : Bool :=
  (65 ≤ c.toNat && c.toNat ≤ 90) || (97 ≤ c.toNat && c.toNat ≤ 122)

def isUpperB (c : Char) : Bool := 65 ≤ c.toNat && c.toNat ≤ 90

def identChar (first : Bool) (c : Char) : Bool :=
  c = '_' || isLetterB c || (!first && isDigitB c)

def validIdentAux : Bool → List Char → Bool
  | _, [] => true
  | first, c :: cs => identChar first c && validIdentAux false cs

def validIdent (s : String) : Bool :=
  validIdentAux true s.data && s ≠ ""

/-! ## strconv.Atoi

Modelled as: optional sign followed by a non-empty run of ASCII digits.
(Go additionally rejects out-of-range values; no claim depends on overflow.) -/

def digitVal (c : Char) : Nat := c.toNat - 48

def digitsVal (cs : List Char) : Nat :=
  cs.foldl (fun a c => a * 10 + digitVal c) 0

def allDigits (cs : List Char) : Bool := cs.all isDigitB

def atoi (s : String) : Option Int :=
  match s.data with
  | [] => none
  | c :: rest =>
      if c = '-' then
        if rest ≠ [] && allDigits rest then some (-(digitsVal rest : Int)) else none
      else if c = '+' then
        if rest ≠ [] && allDigits rest then some ((digitsVal rest : Int)) else none
      else if allDigits (c :: rest) then some ((digitsVal (c :: rest) : Int)) else none

/-! ## Decimal printing of integers (fmt.Fprint on an int path element) -/

def digitChar (d : Nat) : Char :=
  match d with
  | 0 => '0' | 1 => '1' | 2 => '2' | 3 => '3' | 4 => '4'
  | 5 => '5' | 6 => '6' | 7 => '7' | 8 => '8' | _ => '9'

def natChars (n : Nat) : List Char :=
  if h : n < 10 then [digitChar n]
  else natChars (n / 10) ++ [digitChar (n % 10)]
termination_by n
decreasing_by exact Nat.div_lt_self (by omega) (by omega)

def intChars (i : Int) : List Char :=
  if i < 0 then '-' :: natChars (-i).toNat else natChars i.toNat

/-! ## Path elements

Go represents a parsed path as []interface\x7b\x7d holding strings and ints. -/

inductive PElem where
  | str (s : String)
  | num (n : Int)
deriving DecidableEq, Repr

def elemStr : PElem → String
  | .str s => s
  | .num n => String.mk (intChars n)

def isOp (s : String) : Bool :=
  s = opKey || s = opValue || s = opParams || s = opResults || s = opUnderlying

/-! ## strings.Split(s, ".") on the character list -/

def splitDots : List Char → List (List Char)
  | [] => [[]]
  | c :: cs =>
      if c = '.' then [] :: splitDots cs
      else
        match splitDots cs with
        | [] => [[c]]
        | w :: ws => (c :: w) :: ws

/-- Classification of one word of a path: integer, reserved token, or
identifier — in that order, as in `parse` (objectpath.go). -/
def classify (w : String) : Except String PElem :=
  match atoi w with
  | some n => .ok (.num n)
  | none =>
      if isOp w then .ok (.str w)
      else if validIdent w then .ok (.str w)
      else .error ("invalid path: not an identifier: " ++ w)

/-- parse (objectpath.go): split on dots, classify every word, first error wins. -/
def parse (s : String) : Except String (List PElem) :=
  (splitDots s.data).mapM (fun w => classify (String.mk w))

/-- The dotted join performed by `Of` via bytes.Buffer and fmt.Fprint. -/
def joinDots : List String → String
  | [] => ""
  | [s] => s
  | s :: ss => s ++ "." ++ joinDots ss

/-! ## A stable insertion sort (sort.Strings, sort.Slice)

`sortL less` places an element before the first resident element `y` with
`less y x = false`, which preserves the original order of ties — the
behaviour of Go's insertion sort on small slices, and (for the total order
on strings) the unique sorted permutation computed by sort.Strings. -/

def insertStable (less : α → α → Bool) (x : α) : List α → List α
  | [] => [x]
  | y :: ys => if less y x then y :: insertStable less x ys else x :: y :: ys

def sortL (less : α → α → Bool) : List α → List α
  | [] => []
  | x :: xs => insertStable less x (sortL less xs)

def sortStrings (l : List String) : List String :=
  sortL (fun a b => a < b) l

theorem insertStable_perm (less : α → α → Bool) (x : α) (l : List α) :
    (insertStable less x l).Perm (x :: l) := by
  induction l with
  | nil => simp [insertStable]
  | cons y ys ih =>
      simp only [insertStable]
      by_cases h : less y x = true
      · simp only [h, if_pos]
        exact ((ih.cons y).trans (List.Perm.swap x y ys))
      · simp only [h]
        simp

theorem sortL_perm (less : α → α → Bool) (l : List α) :
    (sortL less l).Perm l := by
  induction l with
  | nil => simp [sortL]
  | cons x xs ih =>
      simpa [sortL] using (insertStable_perm less x (sortL less xs)).trans (ih.cons x)

theorem insertStable_sorted [LinearOrder α] (x : α) (l : List α)
    (hl : l.Sorted (· ≤ ·)) :
    (insertStable (fun a b => decide (a < b)) x l).Sorted (· ≤ ·) := by
  induction l with
  | nil => simp [insertStable]
  | cons y ys ih =>
      simp only [insertStable]
      by_cases h : y < x
      · rw [if_pos (by simpa using h)]
        have hys : ys.Sorted (· ≤ ·) := hl.of_cons
        have h2 := ih hys
        rw [List.sorted_cons]
        refine ⟨?_, h2⟩
        intro b hb
        have := (insertStable_perm (fun a b => decide (a < b)) x ys).mem_iff.mp hb
        rcases List.mem_cons.mp this with rfl | hbys
        · exact le_of_lt h
        · exact (List.sorted_cons.mp hl).1 b hbys
      · have hax : x ≤ y := not_lt.mp h
        rw [if_neg (by simpa using h)]
        rw [List.sorted_cons]
        refine ⟨?_, hl⟩
        intro b hb
        rcases List.mem_cons.mp hb with rfl | hbys
        · exact hax
        · exact le_trans hax ((List.sorted_cons.mp hl).1 b hbys)

theorem sortL_sorted [LinearOrder α] (l : List α) :
    (sortL (fun a b => decide (a < b)) l).Sorted (· ≤ ·) := by
  induction l with
  | nil => simp [sortL]
  | cons x xs ih => exact insertStable_sorted x (sortL _ xs) ih

theorem sortStrings_perm (l : List String) : (sortStrings l).Perm l := by
  have := sortL_perm (fun a b : String => a < b) l
  simpa [sortStrings] using this

theorem sortStrings_sorted (l : List String) :
    (sortStrings l).Sorted (· ≤ ·) := by
  have := sortL_sorted (α := String) l
  simpa [sortStrings] using this

/-!
Part 2: the fragment of go/types that objectpath.go traverses.

Objects are the named entities (type names, functions/methods, variables/
fields, constants, package names, labels); types are the type trees that
`find` walks. Object identity — pointer equality in Go — is modelled by a
numeric id `oid`; `Id()` is computed from the package path and name exactly
as types.Id does. A named type's declared methods and underlying type are
stored in the `named` node; struct fields and interface methods are Object
values inside the type tree, as in go/types.
-/

inductive ObjKind where
  | tname | funcK | varK | constK | pkgName | labelK | builtinK
deriving DecidableEq, Repr

mutual

inductive GoType where
  | basic
  | named (methods : List Object) (underlying : GoType)
  | pointer (elem : GoType)
  | slice (elem : GoType)
  | array (elem : GoType)
  | chan (elem : GoType)
  | mapT (key elem : GoType)
  | signature (hasRecv : Bool) (params results : GoType)
  | tuple (elems : List GoType)
  | struct (fields : List Object)
  | iface (methods : List Object)

inductive Object where
  | mk (oid : Nat) (kind : ObjKind) (name : String) (pkgPath : Option String)
      (fieldFlag : Bool) (ty : GoType)

end

def Object.oid : Object → Nat
  | .mk i _ _ _ _ _ => i

def Object.kind : Object → ObjKind
  | .mk _ k _ _ _ _ => k

def Object.name : Object → String
  | .mk _ _ n _ _ _ => n

def Object.pkgPath : Object → Option String
  | .mk _ _ _ p _ _ => p

def Object.isField : Object → Bool
  | .mk _ _ _ _ f _ => f

def Object.ty : Object → GoType
  | .mk _ _ _ _ _ t => t

/-- token.IsExported: first character upper case (ASCII approximation). -/
def isExported (name : String) : Bool :=
  match name.data with
  | [] => false
  | c :: _ => isUpperB c

/-- types.Id(pkg, name): qualified name for unexported identifiers. -/
def goId (pkgPath : Option String) (name : String) : String :=
  if isExported name then name
  else
    (match pkgPath with
     | some p => if p = "" then "_" else p
     | none => "_") ++ "." ++ name

def Object.idStr (o : Object) : String := goId o.pkgPath o.name

/-- Signature receiver test used for obj.Type().(*types.Signature).Recv() != nil. -/
def hasRecv : GoType → Bool
  | .signature r _ _ => r
  | _ => false

/-- A types.Package: its path and its package-level scope. -/
structure Package where
  path : String
  scope : List Object

/-- Scope.Lookup: the (unique) scope entry with the given name. -/
def lookupScope (scope : List Object) (name : String) : Option Object :=
  scope.find? (fun o => o.name = name)

/-- Scope.Names: the scope's element names in sorted order. -/
def scopeNames (scope : List Object) : List String :=
  sortStrings (scope.map Object.name)

def lookupPkg (env : List Package) (p : String) : Option Package :=
  env.find? (fun q => q.path = p)

/-!
Part 3: the encoder (`pathOf` / `Of`) and decoder (`FindObject`).

`findE`/`findEList`/`findETuple` are the closure `find` of pathOf: the
ordered walk of a type tree that prepends structural tokens and returns the
first complete path to the target object. `findD` is the closure `find` of
FindObject, replaying one path element per step. `DRes.panics` records the
executions on which the Go code crashes (a failed type assertion or a
negative slice index) rather than returning.
-/

theorem Object.sizeOf_ty_lt (o : Object) : sizeOf o.ty < sizeOf o := by
  cases o
  all_goals simp [Object.ty]
  all_goals omega

mutual

def findE (obj : Object) (pre : List PElem) : GoType → Option (List PElem)
  | .basic => none
  | .named _ _ => none
  | .pointer t => findE obj pre t
  | .slice t => findE obj pre t
  | .array t => findE obj pre t
  | .chan t => findE obj pre t
  | .mapT k v =>
      match findE obj (pre ++ [.str opKey]) k with
      | some r => some r
      | none => findE obj (pre ++ [.str opValue]) v
  | .signature _ ps rs =>
      match findE obj (pre ++ [.str opParams]) ps with
      | some r => some r
      | none => findE obj (pre ++ [.str opResults]) rs
  | .struct fs => findEList obj pre fs
  | .iface ms => findEList obj pre ms
  | .tuple ts => findETuple obj pre 0 ts
termination_by t => sizeOf t
decreasing_by
  all_goals simp_wf
  all_goals try (have hf := Object.sizeOf_ty_lt f)
  all_goals omega

def findEList (obj : Object) (pre : List PElem) : List Object → Option (List PElem)
  | [] => none
  | f :: fs =>
      if f.oid = obj.oid then some (pre ++ [.str f.idStr])
      else
        match findE obj (pre ++ [.str f.idStr]) f.ty with
        | some r => some r
        | none => findEList obj pre fs
termination_by fs => sizeOf fs
decreasing_by
  all_goals simp_wf
  all_goals try (have hf := Object.sizeOf_ty_lt f)
  all_goals omega

def findETuple (obj : Object) (pre : List PElem) (i : Nat) : List GoType → Option (List PElem)
  | [] => none
  | t :: ts =>
      match findE obj (pre ++ [.num (i : Int)]) t with
      | some r => some r
      | none => findETuple obj pre (i + 1) ts
termination_by ts => sizeOf ts
decreasing_by
  all_goals simp_wf
  all_goals try (have hf := Object.sizeOf_ty_lt f)
  all_goals omega

end

inductive DRes where
  | ok (o : Object)
  | err (msg : String)
  | panics (msg : String)

def DRes.isPanic : DRes → Bool
  | .panics _ => true
  | _ => false

def findD : List PElem → GoType → DRes
  | path, .pointer t => findD path t
  | path, .slice t => findD path t
  | path, .array t => findD path t
  | path, .chan t => findD path t
  | _, .basic => .err "unexpected basic type"
  | path, .mapT k v =>
      match path with
      | [] => .err "in map: bad path"
      | e :: rest =>
          if e = .str opKey then findD rest k
          else if e = .str opValue then findD rest v
          else .err "in map: unexpected path element"
  | path, .named ms u =>
      match path with
      | [] => .err "in named: bad path"
      | .num _ :: _ => .err "in named: got int, want method name"
      | .str name :: rest =>
          if name = opUnderlying then findD rest u
          else
            match h : ms.find? (fun m => m.name = name) with
            | some m => if rest = [] then .ok m else findD rest m.ty
            | none => .err ("named type has no method " ++ name)
  | path, .struct fs =>
      match path with
      | [] => .err "in struct: empty path"
      | .num _ :: _ => .err "in struct: got int, want field name"
      | .str id :: rest =>
          match h : fs.find? (fun f => f.idStr = id) with
          | some f => if rest = [] then .ok f else findD rest f.ty
          | none => .err ("in struct: no field " ++ id)
  | path, .tuple ts =>
      match path with
      | [] => .err "in map: empty path"
      | .str _ :: _ => .err "in named: got string, want index"
      | .num n :: rest =>
          if h1 : (ts.length : Int) ≤ n then .err "in tuple: index out of range"
          else if h2 : n < 0 then .panics "runtime error: index out of range"
          else findD rest (ts.get ⟨n.toNat, by omega⟩)
  | path, .iface ms =>
      match path with
      | [] => .err "in interface: empty path"
      | .num _ :: _ => .err "in interface: got int, want method name"
      | .str id :: rest =>
          match h : ms.find? (fun m => m.idStr = id) with
          | some m => if rest = [] then .ok m else findD rest m.ty
          | none => .err ("in interface: no method " ++ id)
  | path, .signature _ ps rs =>
      match path with
      | [] => .err "in func: empty path"
      | .num _ :: _ => .err "in func: got int, want params or results"
      | .str name :: rest =>
          if name = opParams then findD rest ps
          else if name = opResults then findD rest rs
          else .err "in signature: unexpected path element"

/-- FindObject (objectpath.go): parse the path, look up its first element in
the package scope, and replay the remaining elements with `find`. The Go code
asserts path[0].(string); on an integer first element that assertion fails at
run time, recorded here as `DRes.panics`. -/
def FindObject (pkg : Package) (p : String) : DRes :=
  match parse p with
  | .error e => .err e
  | .ok [] => .err "empty path"
  | .ok (.num _ :: _) => .panics "interface conversion: interface is int, not string"
  | .ok (.str name :: rest) =>
      match lookupScope pkg.scope name with
      | none => .err (pkg.path ++ "." ++ name ++ " not defined")
      | some obj => if rest = [] then .ok obj else findD rest obj.ty

/-- The type-switch of pathOf that rejects objects that are neither
package-level nor a field nor a method; `none` means the switch passed. -/
def checkKind (obj : Object) : Option String :=
  match obj.kind with
  | .varK => if obj.isField then none else some "var is not a field"
  | .funcK => if hasRecv obj.ty then none else some "func is not a method"
  | _ => some "not a package-level object, nor a field or method"

def isNamedTy : GoType → Bool
  | .named _ _ => true
  | _ => false

/-- The body of the first pass of pathOf for one scope entry whose type is a
named type: inspect declared methods (findEList), then the underlying type. -/
def tryNamedEntry (obj : Object) (nm : String) : GoType → Option (List PElem)
  | .named ms u =>
      (match findEList obj [PElem.str nm] ms with
       | some r => some r
       | none => findE obj [PElem.str nm, PElem.str opUnderlying] u)
  | _ => none

/-- First pass of pathOf: scan package-scope named types in scope-name order;
for each, inspect declared methods and then the underlying type. -/
def firstPass (obj : Object) (scope : List Object) : List String → Option (List PElem)
  | [] => none
  | nm :: rest =>
      match lookupScope scope nm with
      | none => firstPass obj scope rest
      | some o =>
          match tryNamedEntry obj nm o.ty with
          | some r => some r
          | none => firstPass obj scope rest

/-- The non-named-type scope entries saved by the first pass, in scope-name
order. -/
def nontypesOf (scope : List Object) : List String → List Object
  | [] => []
  | nm :: rest =>
      match lookupScope scope nm with
      | some o =>
          if isNamedTy o.ty then nontypesOf scope rest
          else o :: nontypesOf scope rest
      | none => nontypesOf scope rest

/-- Second pass of pathOf: search the types of all other scope entries. -/
def secondPass (obj : Object) : List Object → Option (List PElem)
  | [] => none
  | o :: rest =>
      match findE obj [PElem.str o.name] o.ty with
      | some r => some r
      | none => secondPass obj rest

/-- pathOf (objectpath.go): the element-level encoder. `env` resolves the
object's package (obj.Pkg()) to its scope; a missing package cannot occur
with go/types and is reported as an error. -/
def pathOf (env : List Package) (obj : Object) : Except String (List PElem) :=
  match obj.pkgPath with
  | none => .error "universal objects have no path"
  | some pp =>
      match lookupPkg env pp with
      | none => .error "object package not in environment"
      | some pkg =>
          let scope := pkg.scope
          if (lookupScope scope obj.name).any (fun o => o.oid = obj.oid) then
            .ok [PElem.str obj.name]
          else
            match checkKind obj with
            | some msg => .error msg
            | none =>
                let names := scopeNames scope
                match firstPass obj scope names with
                | some r => .ok r
                | none =>
                    match secondPass obj (nontypesOf scope names) with
                    | some r => .ok r
                    | none => .error "cannot find path for object"

/-- Of (objectpath.go): encode and join with dots. -/
def Of (env : List Package) (obj : Object) : Except String String :=
  match pathOf env obj with
  | .error e => .error e
  | .ok elems => .ok (joinDots (elems.map elemStr))

/-!
Part 4: well-formedness of the model, and the object collectors used to
state identity hypotheses (distinct go/types objects have distinct
addresses; scope names are unique; field/method identifiers are unique
within one struct, interface, or method set — all guaranteed by go/types).
-/

def nodupB [BEq α] : List α → Bool
  | [] => true
  | x :: xs => !(xs.contains x) && nodupB xs

mutual

def typeObjs : GoType → List Object
  | .basic => []
  | .named ms u => objsFam ms ++ typeObjs u
  | .pointer t => typeObjs t
  | .slice t => typeObjs t
  | .array t => typeObjs t
  | .chan t => typeObjs t
  | .mapT k v => typeObjs k ++ typeObjs v
  | .signature _ ps rs => typeObjs ps ++ typeObjs rs
  | .tuple ts => typesObjs ts
  | .struct fs => objsFam fs
  | .iface ms => objsFam ms
termination_by t => sizeOf t
decreasing_by
  all_goals simp_wf
  all_goals omega

def objsFam : List Object → List Object
  | [] => []
  | o :: os => o :: typeObjs o.ty ++ objsFam os
termination_by os => sizeOf os
decreasing_by
  all_goals simp_wf
  all_goals try (have hf := Object.sizeOf_ty_lt o)
  all_goals try (have hg := Object.sizeOf_ty_lt f)
  all_goals omega

def typesObjs : List GoType → List Object
  | [] => []
  | t :: ts => typeObjs t ++ typesObjs ts
termination_by ts => sizeOf ts
decreasing_by
  all_goals simp_wf
  all_goals omega

end

mutual

def wfType : GoType → Bool
  | .basic => true
  | .named ms u => nodupB (ms.map Object.name) && wfObjs ms && wfType u
  | .pointer t => wfType t
  | .slice t => wfType t
  | .array t => wfType t
  | .chan t => wfType t
  | .mapT k v => wfType k && wfType v
  | .signature _ ps rs => wfType ps && wfType rs
  | .tuple ts => wfTypes ts
  | .struct fs => nodupB (fs.map Object.idStr) && wfObjs fs
  | .iface ms => nodupB (ms.map Object.idStr) && wfObjs ms
termination_by t => sizeOf t
decreasing_by
  all_goals simp_wf
  all_goals omega

def wfObjs : List Object → Bool
  | [] => true
  | o :: os => wfType o.ty && wfObjs os
termination_by os => sizeOf os
decreasing_by
  all_goals simp_wf
  all_goals try (have hf := Object.sizeOf_ty_lt o)
  all_goals try (have hg := Object.sizeOf_ty_lt f)
  all_goals omega

def wfTypes : List GoType → Bool
  | [] => true
  | t :: ts => wfType t && wfTypes ts
termination_by ts => sizeOf ts
decreasing_by
  all_goals simp_wf
  all_goals omega

end

def pkgObjs (p : Package) : List Object := objsFam p.scope

def envObjs (env : List Package) : List Object := env.flatMap pkgObjs

def pkgWf (p : Package) : Bool :=
  nodupB (p.scope.map Object.name) && wfObjs p.scope

/-- Well-formed environment: per-package well-formedness plus global
injectivity of object identities (the pointer model). -/
def envWf (env : List Package) : Bool :=
  env.all pkgWf && nodupB ((envObjs env).map Object.oid)

/-!
Part 5: the textual round trip — `parse (joinDots elems) = elems` for paths
whose string elements are reserved tokens or plain identifiers and whose
integer elements are non-negative (every path the encoder can emit, except
those containing a qualified `Id()` of an unexported member, which contains
a dot and is exactly the case on which decoding breaks down).
-/

def elemOk : PElem → Bool
  | .str s => isOp s || validIdent s
  | .num n => decide (0 ≤ n)

theorem digitsVal_append (cs : List Char) (c : Char) :
    digitsVal (cs ++ [c]) = digitsVal cs * 10 + digitVal c := by
  simp [digitsVal, List.foldl_append]

theorem natChars_allDigits (n : Nat) : allDigits (natChars n) = true := by
  induction n using Nat.strong_induction_on with
  | _ n ih =>
      rw [natChars]
      by_cases h : n < 10
      · rw [dif_pos h]
        have : isDigitB (digitChar n) = true := by
          unfold digitChar
          split <;> decide
        simp [allDigits, this]
      · rw [dif_neg h]
        have h1 := ih (n / 10) (Nat.div_lt_self (by omega) (by omega))
        have h2 : isDigitB (digitChar (n % 10)) = true := by
          unfold digitChar
          split <;> decide
        simp only [allDigits, List.all_append] at h1 ⊢
        simp [h1, h2]

theorem natChars_ne_nil (n : Nat) : natChars n ≠ [] := by
  rw [natChars]
  by_cases h : n < 10
  · rw [dif_pos h]; simp
  · rw [dif_neg h]; simp

theorem digitVal_digitChar (d : Nat) (h : d < 10) : digitVal (digitChar d) = d := by
  unfold digitChar
  interval_cases d <;> rfl

theorem digitsVal_natChars (n : Nat) : digitsVal (natChars n) = n := by
  induction n using Nat.strong_induction_on with
  | _ n ih =>
      rw [natChars]
      by_cases h : n < 10
      · rw [dif_pos h]
        simp [digitsVal, digitVal_digitChar n h]
      · rw [dif_neg h]
        rw [digitsVal_append]
        rw [ih (n / 10) (Nat.div_lt_self (by omega) (by omega))]
        rw [digitVal_digitChar (n % 10) (by omega)]
        omega

theorem isDigitB_ne_minus (c : Char) (h : isDigitB c = true) : (c = '-') = False := by
  simp only [eq_iff_iff, iff_false]
  intro hh
  subst hh
  simp [isDigitB] at h

theorem isDigitB_ne_plus (c : Char) (h : isDigitB c = true) : (c = '+') = False := by
  simp only [eq_iff_iff, iff_false]
  intro hh
  subst hh
  simp [isDigitB] at h

theorem atoi_mk_natChars (n : Nat) : atoi (String.mk (natChars n)) = some (n : Int) := by
  have hd := natChars_allDigits n
  cases hn : natChars n with
  | nil => exact absurd hn (natChars_ne_nil n)
  | cons c cs =>
      rw [hn] at hd
      have hc : isDigitB c = true := by
        simp only [allDigits, List.all_cons, Bool.and_eq_true] at hd
        exact hd.1
      show atoi (String.mk (c :: cs)) = some (n : Int)
      unfold atoi
      simp only
      rw [if_neg (by simpa using (isDigitB_ne_minus c hc)),
          if_neg (by simpa using (isDigitB_ne_plus c hc)), if_pos hd]
      have := digitsVal_natChars n
      rw [hn] at this
      rw [this]

theorem validIdent_data_ne_nil (s : String) (h : validIdent s = true) : s.data ≠ [] := by
  simp only [validIdent, Bool.and_eq_true, decide_eq_true_eq] at h
  intro hd
  apply h.2
  apply String.ext
  simpa using hd

theorem atoi_of_validIdent (s : String) (h : validIdent s = true) : atoi s = none := by
  have hne := validIdent_data_ne_nil s h
  cases hd : s.data with
  | nil => exact absurd hd hne
  | cons c cs =>
      have hc : identChar true c = true := by
        simp only [validIdent, Bool.and_eq_true] at h
        have := h.1
        rw [hd] at this
        simp only [validIdentAux, Bool.and_eq_true] at this
        exact this.1
      have hc1 : (c = '-') = False := by
        simp only [eq_iff_iff, iff_false]
        intro hh
        subst hh
        simp [identChar, isLetterB] at hc
      have hc2 : (c = '+') = False := by
        simp only [eq_iff_iff, iff_false]
        intro hh
        subst hh
        simp [identChar, isLetterB] at hc
      have hc3 : isDigitB c = false := by
        cases hdig : isDigitB c
        · rfl
        · exfalso
          simp only [isDigitB, Bool.and_eq_true, decide_eq_true_eq] at hdig
          rcases Bool.or_eq_true _ _ |>.mp hc with h1 | h1
          · rcases Bool.or_eq_true _ _ |>.mp h1 with h2 | h2
            · have hu : c = '_' := by simpa using h2
              subst hu
              exact absurd hdig (by decide)
            · simp only [isLetterB, Bool.or_eq_true, Bool.and_eq_true,
                decide_eq_true_eq] at h2
              omega
          · simp at h1
      unfold atoi
      rw [hd]
      simp only
      rw [if_neg (by simpa using hc1), if_neg (by simpa using hc2)]
      rw [if_neg]
      simp [allDigits, hc3]

theorem atoi_of_isOp (s : String) (h : isOp s = true) : atoi s = none := by
  simp only [isOp, Bool.or_eq_true, decide_eq_true_eq] at h
  rcases h with (((h | h) | h) | h) | h <;> subst h <;> rfl

theorem classify_elemStr (e : PElem) (h : elemOk e = true) :
    classify (elemStr e) = .ok e := by
  cases e with
  | num n =>
      simp only [elemOk, decide_eq_true_eq] at h
      simp only [elemStr, intChars]
      rw [if_neg (by omega)]
      unfold classify
      rw [atoi_mk_natChars n.toNat]
      simp only
      congr 1
      congr 1
      omega
  | str s =>
      simp only [elemOk, Bool.or_eq_true] at h
      unfold classify
      simp only [elemStr]
      rcases h with h | h
      · rw [atoi_of_isOp s h]
        simp [h]
      · rw [atoi_of_validIdent s h]
        by_cases ho : isOp s = true
        · simp [ho]
        · simp [ho, h]

theorem validIdentAux_no_dot (cs : List Char) :
    ∀ b, validIdentAux b cs = true → '.' ∉ cs := by
  induction cs with
  | nil => simp
  | cons c cs ih =>
      intro b h
      simp only [validIdentAux, Bool.and_eq_true] at h
      intro hmem
      rcases List.mem_cons.mp hmem with rfl | hmem
      · have := h.1
        simp [identChar, isLetterB, isDigitB] at this
      · exact ih false h.2 hmem

theorem validIdent_no_dot (s : String) (h : validIdent s = true) : '.' ∉ s.data := by
  simp only [validIdent, Bool.and_eq_true] at h
  exact validIdentAux_no_dot s.data true h.1

theorem allDigits_no_dot (cs : List Char) (h : allDigits cs = true) : '.' ∉ cs := by
  intro hmem
  simp only [allDigits, List.all_eq_true] at h
  have := h '.' hmem
  simp [isDigitB] at this

theorem elemStr_no_dot (e : PElem) (h : elemOk e = true) : '.' ∉ (elemStr e).data := by
  cases e with
  | num n =>
      simp only [elemOk, decide_eq_true_eq] at h
      simp only [elemStr, intChars]
      rw [if_neg (by omega)]
      exact allDigits_no_dot _ (natChars_allDigits n.toNat)
  | str s =>
      simp only [elemOk, Bool.or_eq_true] at h
      rcases h with h | h
      · simp only [isOp, Bool.or_eq_true, decide_eq_true_eq] at h
        rcases h with (((h | h) | h) | h) | h <;> subst h <;> decide
      · exact validIdent_no_dot s h

theorem splitDots_no_dot (w : List Char) (hw : '.' ∉ w) : splitDots w = [w] := by
  induction w with
  | nil => rfl
  | cons c cs ih =>
      have hc : c ≠ '.' := fun hh => hw (hh ▸ List.mem_cons_self c cs)
      have hcs : '.' ∉ cs := fun hh => hw (List.mem_cons_of_mem c hh)
      rw [splitDots, if_neg (by simpa using fun hh => hc hh), ih hcs]

theorem splitDots_cons_dot (w rest : List Char) (hw : '.' ∉ w) :
    splitDots (w ++ '.' :: rest) = w :: splitDots rest := by
  induction w with
  | nil => simp [splitDots]
  | cons c cs ih =>
      have hc : c ≠ '.' := fun hh => hw (hh ▸ List.mem_cons_self c cs)
      have hcs : '.' ∉ cs := fun hh => hw (List.mem_cons_of_mem c hh)
      rw [List.cons_append, splitDots, if_neg (by simpa using fun hh => hc hh)]
      rw [ih hcs]

theorem joinDots_cons_data (s : String) (s2 : String) (ss : List String) :
    (joinDots (s :: s2 :: ss)).data = s.data ++ '.' :: (joinDots (s2 :: ss)).data := by
  show (s ++ "." ++ joinDots (s2 :: ss)).data = _
  rw [String.data_append, String.data_append]
  simp

theorem splitDots_joinDots (ss : List String) (hne : ss ≠ [])
    (h : ∀ s ∈ ss, '.' ∉ s.data) :
    splitDots (joinDots ss).data = ss.map String.data := by
  induction ss with
  | nil => exact absurd rfl hne
  | cons s ss ih =>
      cases ss with
      | nil =>
          show splitDots (joinDots [s]).data = [s.data]
          exact splitDots_no_dot s.data (h s (List.mem_cons_self s []))
      | cons s2 ss2 =>
          rw [joinDots_cons_data]
          rw [splitDots_cons_dot s.data _ (h s (List.mem_cons_self _ _))]
          rw [ih (by simp) (fun t ht => h t (List.mem_cons_of_mem s ht))]
          rfl

theorem parse_joinDots (elems : List PElem) (hne : elems ≠ [])
    (h : elems.all elemOk = true) :
    parse (joinDots (elems.map elemStr)) = .ok elems := by
  have hok : ∀ e ∈ elems, elemOk e = true := by
    simpa [List.all_eq_true] using h
  unfold parse
  rw [splitDots_joinDots (elems.map elemStr)
    (by simpa using hne)
    (by
      intro s hs
      rcases List.mem_map.mp hs with ⟨e, he, rfl⟩
      exact elemStr_no_dot e (hok e he))]
  rw [List.map_map]
  induction elems with
  | nil => exact absurd rfl hne
  | cons e es ih =>
      simp only [List.map_cons, List.mapM_cons]
      have h1 : String.mk ((String.data ∘ elemStr) e) = elemStr e := by
        simp
      rw [h1, classify_elemStr e (hok e (List.mem_cons_self _ _))]
      cases es with
      | nil => rfl
      | cons e2 es2 =>
          rw [ih (by simp) (by
            simp only [List.all_eq_true] at h ⊢
            exact fun x hx => h x (List.mem_cons_of_mem e hx))
            (fun x hx => hok x (List.mem_cons_of_mem e hx))]
          rfl

/-!
Part 6: helper lemmas about the collectors, well-formedness, and `find?`,
used by the round-trip proof.
-/

theorem nodupB_iff [BEq α] [LawfulBEq α] (l : List α) : nodupB l = true ↔ l.Nodup := by
  induction l with
  | nil => simp [nodupB]
  | cons x xs ih =>
      simp only [nodupB, Bool.and_eq_true, Bool.not_eq_eq_eq_not, Bool.not_true,
        List.nodup_cons]
      rw [ih]
      constructor
      · rintro ⟨h1, h2⟩
        refine ⟨?_, h2⟩
        intro hmem
        have : xs.contains x = true := List.elem_eq_true_of_mem hmem
        rw [this] at h1
        simp at h1
      · rintro ⟨h1, h2⟩
        refine ⟨?_, h2⟩
        cases hc : xs.contains x
        · rfl
        · exact absurd (List.mem_of_elem_eq_true hc) h1

theorem objsFam_mem_self (os : List Object) (o : Object) (h : o ∈ os) :
    o ∈ objsFam os := by
  induction os with
  | nil => simp at h
  | cons g gs ih =>
      rw [objsFam]
      rcases List.mem_cons.mp h with rfl | h
      · exact List.mem_cons_self _ _
      · exact List.mem_cons_of_mem _ (List.mem_append_right _ (ih h))

theorem objsFam_mem_sub (os : List Object) (o x : Object) (ho : o ∈ os)
    (hx : x ∈ typeObjs o.ty) : x ∈ objsFam os := by
  induction os with
  | nil => simp at ho
  | cons g gs ih =>
      rw [objsFam]
      rcases List.mem_cons.mp ho with rfl | ho
      · exact List.mem_cons_of_mem _ (List.mem_append_left _ hx)
      · exact List.mem_cons_of_mem _ (List.mem_append_right _ (ih ho))

theorem typesObjs_sub (ts : List GoType) (t : GoType) (x : Object) (ht : t ∈ ts)
    (hx : x ∈ typeObjs t) : x ∈ typesObjs ts := by
  induction ts with
  | nil => simp at ht
  | cons g gs ih =>
      rw [typesObjs]
      rcases List.mem_cons.mp ht with rfl | ht
      · exact List.mem_append_left _ hx
      · exact List.mem_append_right _ (ih ht)

theorem wfObjs_mem (os : List Object) (o : Object) (h : wfObjs os = true) (ho : o ∈ os) :
    wfType o.ty = true := by
  induction os with
  | nil => simp at ho
  | cons g gs ih =>
      rw [wfObjs] at h
      simp only [Bool.and_eq_true] at h
      rcases List.mem_cons.mp ho with rfl | ho
      · exact h.1
      · exact ih h.2 ho

theorem wfTypes_mem (ts : List GoType) (t : GoType) (h : wfTypes ts = true) (ht : t ∈ ts) :
    wfType t = true := by
  induction ts with
  | nil => simp at ht
  | cons g gs ih =>
      rw [wfTypes] at h
      simp only [Bool.and_eq_true] at h
      rcases List.mem_cons.mp ht with rfl | ht
      · exact h.1
      · exact ih h.2 ht

theorem find?_map_nodup [DecidableEq β] (key : α → β) (fs : List α)
    (hnd : (fs.map key).Nodup) (f : α) (hf : f ∈ fs) :
    fs.find? (fun m => key m = key f) = some f := by
  induction fs with
  | nil => simp at hf
  | cons g gs ih =>
      simp only [List.map_cons, List.nodup_cons] at hnd
      rcases List.mem_cons.mp hf with rfl | hf
      · rw [List.find?_cons]
        simp
      · have hne : key g ≠ key f := by
          intro he
          exact hnd.1 (he ▸ List.mem_map_of_mem key hf)
        rw [List.find?_cons]
        have hd : decide (key g = key f) = false := by simpa using hne
        rw [hd]
        exact ih hnd.2 hf

/-- Success of the tuple leg of the encoder: some component matched, with the
running index recorded in the emitted element. -/
theorem findETuple_char (obj : Object) :
    ∀ (ts : List GoType) (i : Nat) (pre res : List PElem),
      findETuple obj pre i ts = some res →
      ∃ j, ∃ hj : j < ts.length,
        findE obj (pre ++ [.num ((i + j : Nat) : Int)]) (ts.get ⟨j, hj⟩) = some res := by
  intro ts
  induction ts with
  | nil => intro i pre res h; rw [findETuple] at h; exact absurd h (by simp)
  | cons t ts ih =>
      intro i pre res h
      rw [findETuple] at h
      cases hE : findE obj (pre ++ [.num (i : Int)]) t with
      | some r =>
          rw [hE] at h
          simp only [Option.some.injEq] at h
          subst h
          exact ⟨0, by simp, by simpa using hE⟩
      | none =>
          rw [hE] at h
          simp only at h
          rcases ih (i + 1) pre res h with ⟨j, hj, hfind⟩
          refine ⟨j + 1, by simpa using hj, ?_⟩
          have : i + 1 + j = i + (j + 1) := by omega
          rw [this] at hfind
          simpa using hfind

/-- Success of the struct/interface/method-list leg of the encoder: some
entry either is the target or contains it. -/
theorem findEList_char (obj : Object) :
    ∀ (fs : List Object) (pre res : List PElem),
      findEList obj pre fs = some res →
      ∃ f, f ∈ fs ∧
        ((f.oid = obj.oid ∧ res = pre ++ [.str f.idStr]) ∨
         findE obj (pre ++ [.str f.idStr]) f.ty = some res) := by
  intro fs
  induction fs with
  | nil => intro pre res h; rw [findEList] at h; exact absurd h (by simp)
  | cons f fs ih =>
      intro pre res h
      rw [findEList] at h
      by_cases hoid : f.oid = obj.oid
      · rw [if_pos hoid] at h
        simp only [Option.some.injEq] at h
        exact ⟨f, List.mem_cons_self _ _, Or.inl ⟨hoid, h.symm⟩⟩
      · rw [if_neg hoid] at h
        cases hE : findE obj (pre ++ [.str f.idStr]) f.ty with
        | some r =>
            rw [hE] at h
            simp only [Option.some.injEq] at h
            subst h
            exact ⟨f, List.mem_cons_self _ _, Or.inr hE⟩
        | none =>
            rw [hE] at h
            simp only at h
            rcases ih pre res h with ⟨g, hg, hc⟩
            exact ⟨g, List.mem_cons_of_mem _ hg, hc⟩

/-!
Part 7: the decoder replays the encoder.

If the encoder's `find` locates the target inside a type `T` with a given
prefix, then on a well-formed `T` the decoder's `find`, run on the emitted
suffix, returns an object with the target's identity — provided every
emitted element is a reserved token, a plain identifier, or an index
(`elemOk`), which fails exactly for the dotted qualified identifiers of
unexported members.
-/

theorem findE_replay (obj : Object) :
    ∀ (n : Nat) (T : GoType) (pre res : List PElem),
      sizeOf T ≤ n →
      findE obj pre T = some res →
      wfType T = true →
      ∃ suf, res = pre ++ suf ∧ suf ≠ [] ∧
        (suf.all elemOk = true →
          ∃ f, f ∈ typeObjs T ∧ f.oid = obj.oid ∧ findD suf T = .ok f) := by
  intro n
  induction n using Nat.strong_induction_on with
  | _ n ih =>
  intro T pre res hn hE hwf
  cases T with
  | basic => rw [findE] at hE; exact absurd hE (by simp)
  | named ms u => rw [findE] at hE; exact absurd hE (by simp)
  | pointer t =>
      rw [findE] at hE
      have hsz : sizeOf t < n := by
        have : sizeOf t < sizeOf (GoType.pointer t) := by simp
        omega
      rcases ih (sizeOf t) hsz t pre res (le_refl _) hE (by rw [wfType] at hwf; exact hwf)
        with ⟨suf, rfl, hne, hdec⟩
      refine ⟨suf, rfl, hne, fun hall => ?_⟩
      rcases hdec hall with ⟨f, hfm, hfo, hfd⟩
      exact ⟨f, by rw [typeObjs]; exact hfm, hfo, by rw [findD]; exact hfd⟩
  | slice t =>
      rw [findE] at hE
      have hsz : sizeOf t < n := by
        have : sizeOf t < sizeOf (GoType.slice t) := by simp
        omega
      rcases ih (sizeOf t) hsz t pre res (le_refl _) hE (by rw [wfType] at hwf; exact hwf)
        with ⟨suf, rfl, hne, hdec⟩
      refine ⟨suf, rfl, hne, fun hall => ?_⟩
      rcases hdec hall with ⟨f, hfm, hfo, hfd⟩
      exact ⟨f, by rw [typeObjs]; exact hfm, hfo, by rw [findD]; exact hfd⟩
  | array t =>
      rw [findE] at hE
      have hsz : sizeOf t < n := by
        have : sizeOf t < sizeOf (GoType.array t) := by simp
        omega
      rcases ih (sizeOf t) hsz t pre res (le_refl _) hE (by rw [wfType] at hwf; exact hwf)
        with ⟨suf, rfl, hne, hdec⟩
      refine ⟨suf, rfl, hne, fun hall => ?_⟩
      rcases hdec hall with ⟨f, hfm, hfo, hfd⟩
      exact ⟨f, by rw [typeObjs]; exact hfm, hfo, by rw [findD]; exact hfd⟩
  | chan t =>
      rw [findE] at hE
      have hsz : sizeOf t < n := by
        have : sizeOf t < sizeOf (GoType.chan t) := by simp
        omega
      rcases ih (sizeOf t) hsz t pre res (le_refl _) hE (by rw [wfType] at hwf; exact hwf)
        with ⟨suf, rfl, hne, hdec⟩
      refine ⟨suf, rfl, hne, fun hall => ?_⟩
      rcases hdec hall with ⟨f, hfm, hfo, hfd⟩
      exact ⟨f, by rw [typeObjs]; exact hfm, hfo, by rw [findD]; exact hfd⟩
  | mapT k v =>
      rw [findE] at hE
      rw [wfType] at hwf
      simp only [Bool.and_eq_true] at hwf
      cases hk : findE obj (pre ++ [.str opKey]) k with
      | some r =>
          rw [hk] at hE
          simp only [Option.some.injEq] at hE
          subst hE
          have hsz : sizeOf k < n := by
            have : sizeOf k < sizeOf (GoType.mapT k v) := by simp <;> omega
            omega
          rcases ih (sizeOf k) hsz k (pre ++ [.str opKey]) r (le_refl _) hk hwf.1
            with ⟨suf, rfl, _, hdec⟩
          refine ⟨.str opKey :: suf, by simp, by simp, fun hall => ?_⟩
          simp only [List.all_cons, Bool.and_eq_true] at hall
          rcases hdec hall.2 with ⟨f, hfm, hfo, hfd⟩
          refine ⟨f, by rw [typeObjs]; exact List.mem_append_left _ hfm, hfo, ?_⟩
          rw [findD]
          rw [if_pos rfl]
          exact hfd
      | none =>
          rw [hk] at hE
          simp only at hE
          have hsz : sizeOf v < n := by
            have : sizeOf v < sizeOf (GoType.mapT k v) := by simp <;> omega
            omega
          rcases ih (sizeOf v) hsz v (pre ++ [.str opValue]) res (le_refl _) hE hwf.2
            with ⟨suf, rfl, _, hdec⟩
          refine ⟨.str opValue :: suf, by simp, by simp, fun hall => ?_⟩
          simp only [List.all_cons, Bool.and_eq_true] at hall
          rcases hdec hall.2 with ⟨f, hfm, hfo, hfd⟩
          refine ⟨f, by rw [typeObjs]; exact List.mem_append_right _ hfm, hfo, ?_⟩
          rw [findD]
          rw [if_neg (by decide), if_pos rfl]
          exact hfd
  | signature b ps rs =>
      rw [findE] at hE
      rw [wfType] at hwf
      simp only [Bool.and_eq_true] at hwf
      cases hk : findE obj (pre ++ [.str opParams]) ps with
      | some r =>
          rw [hk] at hE
          simp only [Option.some.injEq] at hE
          subst hE
          have hsz : sizeOf ps < n := by
            have : sizeOf ps < sizeOf (GoType.signature b ps rs) := by simp <;> omega
            omega
          rcases ih (sizeOf ps) hsz ps (pre ++ [.str opParams]) r (le_refl _) hk hwf.1
            with ⟨suf, rfl, _, hdec⟩
          refine ⟨.str opParams :: suf, by simp, by simp, fun hall => ?_⟩
          simp only [List.all_cons, Bool.and_eq_true] at hall
          rcases hdec hall.2 with ⟨f, hfm, hfo, hfd⟩
          refine ⟨f, by rw [typeObjs]; exact List.mem_append_left _ hfm, hfo, ?_⟩
          rw [findD]
          rw [if_pos rfl]
          exact hfd
      | none =>
          rw [hk] at hE
          simp only at hE
          have hsz : sizeOf rs < n := by
            have : sizeOf rs < sizeOf (GoType.signature b ps rs) := by simp <;> omega
            omega
          rcases ih (sizeOf rs) hsz rs (pre ++ [.str opResults]) res (le_refl _) hE hwf.2
            with ⟨suf, rfl, _, hdec⟩
          refine ⟨.str opResults :: suf, by simp, by simp, fun hall => ?_⟩
          simp only [List.all_cons, Bool.and_eq_true] at hall
          rcases hdec hall.2 with ⟨f, hfm, hfo, hfd⟩
          refine ⟨f, by rw [typeObjs]; exact List.mem_append_right _ hfm, hfo, ?_⟩
          rw [findD]
          rw [if_neg (by decide), if_pos rfl]
          exact hfd
  | struct fs =>
      rw [findE] at hE
      rw [wfType] at hwf
      simp only [Bool.and_eq_true] at hwf
      have hnd : (fs.map Object.idStr).Nodup := (nodupB_iff _).mp hwf.1
      rcases findEList_char obj fs pre res hE with ⟨f, hfm, hcase⟩
      have hfind : fs.find? (fun m => m.idStr = f.idStr) = some f :=
        find?_map_nodup Object.idStr fs hnd f hfm
      rcases hcase with ⟨hoid, rfl⟩ | hInner
      · refine ⟨[.str f.idStr], rfl, by simp, fun _ => ?_⟩
        refine ⟨f, by rw [typeObjs]; exact objsFam_mem_self fs f hfm, hoid, ?_⟩
        rw [findD]
        rw [hfind]
        simp
      · have hsz : sizeOf f.ty < n := by
          have h1 := Object.sizeOf_ty_lt f
          have h2 := List.sizeOf_lt_of_mem hfm
          have h3 : sizeOf (GoType.struct fs) = 1 + sizeOf fs := by simp
          omega
        rcases ih (sizeOf f.ty) hsz f.ty (pre ++ [.str f.idStr]) res (le_refl _) hInner
          (wfObjs_mem fs f hwf.2 hfm) with ⟨suf, rfl, hne, hdec⟩
        refine ⟨.str f.idStr :: suf, by simp, by simp, fun hall => ?_⟩
        simp only [List.all_cons, Bool.and_eq_true] at hall
        rcases hdec hall.2 with ⟨g, hgm, hgo, hgd⟩
        refine ⟨g, by rw [typeObjs]; exact objsFam_mem_sub fs f g hfm hgm, hgo, ?_⟩
        rw [findD]
        rw [hfind]
        simp only []
        rw [if_neg hne]
        exact hgd
  | iface ms =>
      rw [findE] at hE
      rw [wfType] at hwf
      simp only [Bool.and_eq_true] at hwf
      have hnd : (ms.map Object.idStr).Nodup := (nodupB_iff _).mp hwf.1
      rcases findEList_char obj ms pre res hE with ⟨f, hfm, hcase⟩
      have hfind : ms.find? (fun m => m.idStr = f.idStr) = some f :=
        find?_map_nodup Object.idStr ms hnd f hfm
      rcases hcase with ⟨hoid, rfl⟩ | hInner
      · refine ⟨[.str f.idStr], rfl, by simp, fun _ => ?_⟩
        refine ⟨f, by rw [typeObjs]; exact objsFam_mem_self ms f hfm, hoid, ?_⟩
        rw [findD]
        rw [hfind]
        simp
      · have hsz : sizeOf f.ty < n := by
          have h1 := Object.sizeOf_ty_lt f
          have h2 := List.sizeOf_lt_of_mem hfm
          have h3 : sizeOf (GoType.iface ms) = 1 + sizeOf ms := by simp
          omega
        rcases ih (sizeOf f.ty) hsz f.ty (pre ++ [.str f.idStr]) res (le_refl _) hInner
          (wfObjs_mem ms f hwf.2 hfm) with ⟨suf, rfl, hne, hdec⟩
        refine ⟨.str f.idStr :: suf, by simp, by simp, fun hall => ?_⟩
        simp only [List.all_cons, Bool.and_eq_true] at hall
        rcases hdec hall.2 with ⟨g, hgm, hgo, hgd⟩
        refine ⟨g, by rw [typeObjs]; exact objsFam_mem_sub ms f g hfm hgm, hgo, ?_⟩
        rw [findD]
        rw [hfind]
        simp only []
        rw [if_neg hne]
        exact hgd
  | tuple ts =>
      rw [findE] at hE
      rw [wfType] at hwf
      rcases findETuple_char obj ts 0 pre res hE with ⟨j, hj, hfind⟩
      simp only [Nat.zero_add] at hfind
      have htm : ts.get ⟨j, hj⟩ ∈ ts := List.get_mem ts j hj
      have hsz : sizeOf (ts.get ⟨j, hj⟩) < n := by
        have h2 := List.sizeOf_lt_of_mem htm
        have h3 : sizeOf (GoType.tuple ts) = 1 + sizeOf ts := by simp
        omega
      rcases ih (sizeOf (ts.get ⟨j, hj⟩)) hsz (ts.get ⟨j, hj⟩)
        (pre ++ [.num ((j : Nat) : Int)]) res (le_refl _) hfind
        (wfTypes_mem ts _ hwf htm) with ⟨suf, rfl, hne, hdec⟩
      refine ⟨.num ((j : Nat) : Int) :: suf, by simp, by simp, fun hall => ?_⟩
      simp only [List.all_cons, Bool.and_eq_true] at hall
      rcases hdec hall.2 with ⟨g, hgm, hgo, hgd⟩
      refine ⟨g, by rw [typeObjs]; exact typesObjs_sub ts _ g htm hgm, hgo, ?_⟩
      rw [findD]
      have hc1 : ¬ ((ts.length : Int) ≤ ((j : Nat) : Int)) := by
        push_cast
        omega
      rw [dif_neg hc1]
      have hc2 : ¬ (((j : Nat) : Int) < 0) := by omega
      rw [dif_neg hc2]
      have : (((j : Nat) : Int)).toNat = j := by omega
      simp only [this]
      exact hgd

/-!
Part 8: assembling the full round trip of `Of` and `FindObject`.
-/

theorem isOp_no_dot (s : String) (h : isOp s = true) : '.' ∉ s.data := by
  simp only [isOp, Bool.or_eq_true, decide_eq_true_eq] at h
  rcases h with (((h | h) | h) | h) | h <;> subst h <;> decide

theorem goId_of_validIdent (pp : Option String) (nm : String)
    (h : validIdent (goId pp nm) = true) : goId pp nm = nm := by
  unfold goId at h ⊢
  by_cases he : isExported nm = true
  · rw [if_pos he]
  · rw [if_neg he] at h ⊢
    exfalso
    apply validIdent_no_dot _ h
    rw [String.data_append]
    refine List.mem_append_left _ ?_
    rw [String.data_append]
    refine List.mem_append_right _ ?_
    decide

theorem goId_not_op (pp : Option String) (nm : String) : isOp (goId pp nm) = false := by
  cases ho : isOp (goId pp nm)
  · rfl
  · exfalso
    have hdot := isOp_no_dot _ ho
    unfold goId at ho hdot
    by_cases he : isExported nm = true
    · rw [if_pos he] at ho
      simp only [isOp, Bool.or_eq_true, decide_eq_true_eq] at ho
      rcases ho with (((h | h) | h) | h) | h <;> subst h <;>
        exact absurd he (by decide)
    · rw [if_neg he] at hdot
      apply hdot
      rw [String.data_append]
      refine List.mem_append_left _ ?_
      rw [String.data_append]
      refine List.mem_append_right _ ?_
      decide

theorem elemOk_goId (pp : Option String) (nm : String)
    (h : elemOk (.str (goId pp nm)) = true) :
    goId pp nm = nm ∧ validIdent nm = true := by
  simp only [elemOk, Bool.or_eq_true] at h
  rcases h with h | h
  · rw [goId_not_op pp nm] at h
    exact absurd h (by simp)
  · have := goId_of_validIdent pp nm h
    exact ⟨this, this ▸ h⟩

theorem validIdent_ne_op (nm op : String) (h : validIdent nm = true)
    (hop : isOp op = true) : nm ≠ op := by
  intro heq
  subst heq
  simp only [isOp, Bool.or_eq_true, decide_eq_true_eq] at hop
  rcases hop with (((h1 | h1) | h1) | h1) | h1 <;> rw [h1] at h <;>
    exact absurd h (by decide)

theorem lookupScope_props (scope : List Object) (nm : String) (o : Object)
    (h : lookupScope scope nm = some o) : o.name = nm ∧ o ∈ scope := by
  refine ⟨?_, List.mem_of_find?_eq_some h⟩
  have := List.find?_some h
  simpa using this

/-- Inversion of the one-entry body of the first pass. -/
theorem tryNamedEntry_char (obj : Object) (nm : String) (T : GoType)
    (res : List PElem) (h : tryNamedEntry obj nm T = some res) :
    ∃ ms u, T = .named ms u ∧
      (findEList obj [PElem.str nm] ms = some res ∨
       findE obj [PElem.str nm, PElem.str opUnderlying] u = some res) := by
  cases T with
  | named ms u =>
      rw [tryNamedEntry] at h
      refine ⟨ms, u, rfl, ?_⟩
      cases h1 : findEList obj [PElem.str nm] ms with
      | some r =>
          rw [h1] at h
          simp only at h
          exact Or.inl h
      | none =>
          rw [h1] at h
          exact Or.inr h
  | basic => exact absurd h (by simp [tryNamedEntry])
  | pointer t => exact absurd h (by simp [tryNamedEntry])
  | slice t => exact absurd h (by simp [tryNamedEntry])
  | array t => exact absurd h (by simp [tryNamedEntry])
  | chan t => exact absurd h (by simp [tryNamedEntry])
  | mapT k v => exact absurd h (by simp [tryNamedEntry])
  | signature b ps rs => exact absurd h (by simp [tryNamedEntry])
  | tuple ts => exact absurd h (by simp [tryNamedEntry])
  | struct fs => exact absurd h (by simp [tryNamedEntry])
  | iface ms => exact absurd h (by simp [tryNamedEntry])

/-- Inversion of the first pass: success comes from a specific named scope
entry, via its method set or its underlying type. -/
theorem firstPass_char (obj : Object) (scope : List Object) :
    ∀ (names : List String) (res : List PElem),
      firstPass obj scope names = some res →
      ∃ nm o ms u, lookupScope scope nm = some o ∧ o.ty = .named ms u ∧
        (findEList obj [PElem.str nm] ms = some res ∨
         findE obj [PElem.str nm, PElem.str opUnderlying] u = some res) := by
  intro names
  induction names with
  | nil => intro res h; rw [firstPass] at h; exact absurd h (by simp)
  | cons nm rest ih =>
      intro res h
      rw [firstPass] at h
      cases hl : lookupScope scope nm with
      | none => rw [hl] at h; exact ih res h
      | some o =>
          rw [hl] at h
          simp only at h
          cases h1 : tryNamedEntry obj nm o.ty with
          | some r =>
              rw [h1] at h
              simp only [Option.some.injEq] at h
              subst h
              rcases tryNamedEntry_char obj nm o.ty r h1 with ⟨ms, u, hty, hc⟩
              exact ⟨nm, o, ms, u, hl, hty, hc⟩
          | none =>
              rw [h1] at h
              exact ih res h

/-- Inversion of the second pass. -/
theorem secondPass_char (obj : Object) :
    ∀ (os : List Object) (res : List PElem),
      secondPass obj os = some res →
      ∃ o, o ∈ os ∧ findE obj [PElem.str o.name] o.ty = some res := by
  intro os
  induction os with
  | nil => intro res h; rw [secondPass] at h; exact absurd h (by simp)
  | cons o os ih =>
      intro res h
      rw [secondPass] at h
      cases h1 : findE obj [PElem.str o.name] o.ty with
      | some r =>
          rw [h1] at h
          simp only [Option.some.injEq] at h
          subst h
          exact ⟨o, List.mem_cons_self _ _, h1⟩
      | none =>
          rw [h1] at h
          rcases ih res h with ⟨g, hg, hfind⟩
          exact ⟨g, List.mem_cons_of_mem _ hg, hfind⟩

/-- Objects handed out by the second pass are scope entries. -/
theorem nontypesOf_sub (scope : List Object) :
    ∀ (names : List String) (o : Object), o ∈ nontypesOf scope names →
      ∃ nm, lookupScope scope nm = some o := by
  intro names
  induction names with
  | nil => intro o h; rw [nontypesOf] at h; exact absurd h (by simp)
  | cons nm rest ih =>
      intro o h
      rw [nontypesOf] at h
      cases hl : lookupScope scope nm with
      | none => rw [hl] at h; exact ih o h
      | some g =>
          rw [hl] at h
          simp only at h
          by_cases hty : isNamedTy g.ty = true
          · rw [if_pos hty] at h
            exact ih o h
          · rw [if_neg hty] at h
            rcases List.mem_cons.mp h with rfl | h
            · exact ⟨nm, hl⟩
            · exact ih o h

theorem envObjs_of_scope (env : List Package) (pkg : Package) (hp : pkg ∈ env)
    (x : Object) (hx : x ∈ pkgObjs pkg) : x ∈ envObjs env :=
  List.mem_flatMap.mpr ⟨pkg, hp, hx⟩

theorem envWf_pkg (env : List Package) (h : envWf env = true) (pkg : Package)
    (hp : pkg ∈ env) : pkgWf pkg = true := by
  simp only [envWf, Bool.and_eq_true, List.all_eq_true] at h
  exact h.1 pkg hp

theorem envObjs_inj (env : List Package) (h : envWf env = true) :
    ∀ x ∈ envObjs env, ∀ y ∈ envObjs env, x.oid = y.oid → x = y := by
  simp only [envWf, Bool.and_eq_true] at h
  have hnd : ((envObjs env).map Object.oid).Nodup := (nodupB_iff _).mp h.2
  exact List.inj_on_of_nodup_map hnd

/-- The core of the amended round-trip property: decoding the emitted
element sequence in the object's own package returns the object itself,
whenever every element is a reserved token, a plain identifier, or an
index. -/
theorem pathOf_decode (env : List Package) (pp : String) (pkg : Package)
    (obj : Object) (elems : List PElem)
    (henv : envWf env = true)
    (hobj : obj ∈ envObjs env)
    (hpp : obj.pkgPath = some pp)
    (hpkg : lookupPkg env pp = some pkg)
    (hpath : pathOf env obj = .ok elems)
    (hall : elems.all elemOk = true) :
    FindObject pkg (joinDots (elems.map elemStr)) = .ok obj := by
  have hpkgmem : pkg ∈ env := List.mem_of_find?_eq_some hpkg
  have hwfp : pkgWf pkg = true := envWf_pkg env henv pkg hpkgmem
  simp only [pkgWf, Bool.and_eq_true] at hwfp
  have hinj := envObjs_inj env henv
  rw [pathOf] at hpath
  rw [hpp] at hpath
  simp only at hpath
  rw [hpkg] at hpath
  simp only at hpath
  by_cases hhit : (lookupScope pkg.scope obj.name).any (fun o => o.oid = obj.oid) = true
  · rw [if_pos hhit] at hpath
    simp only [Except.ok.injEq] at hpath
    subst hpath
    cases hlk : lookupScope pkg.scope obj.name with
    | none => rw [hlk] at hhit; simp [Option.any] at hhit
    | some o =>
        rw [hlk] at hhit
        simp only [Option.any, decide_eq_true_eq] at hhit
        have ho := lookupScope_props pkg.scope obj.name o hlk
        have horig : o = obj :=
          hinj o (envObjs_of_scope env pkg hpkgmem o (objsFam_mem_self _ _ ho.2))
            obj hobj hhit
        rw [FindObject]
        rw [parse_joinDots _ (by simp) hall]
        simp only
        rw [hlk]
        rw [horig]
        rfl
  · rw [if_neg hhit] at hpath
    cases hck : checkKind obj with
    | some msg => rw [hck] at hpath; exact absurd hpath (by simp)
    | none =>
        rw [hck] at hpath
        simp only at hpath
        cases hfp : firstPass obj pkg.scope (scopeNames pkg.scope) with
        | some r =>
            rw [hfp] at hpath
            simp only [Except.ok.injEq] at hpath
            subst hpath
            rcases firstPass_char obj pkg.scope _ _ hfp with ⟨nm, o, ms, u, hl, hty, hc⟩
            have ho := lookupScope_props pkg.scope nm o hl
            have hwo : wfType o.ty = true := wfObjs_mem _ o hwfp.2 ho.2
            rw [hty] at hwo
            rw [wfType] at hwo
            simp only [Bool.and_eq_true] at hwo
            have hmsnd : (ms.map Object.name).Nodup := (nodupB_iff _).mp hwo.1.1
            have homem : ∀ x, x ∈ typeObjs o.ty → x ∈ envObjs env := fun x hx =>
              envObjs_of_scope env pkg hpkgmem x (objsFam_mem_sub _ o x ho.2 hx)
            rcases hc with hml | hund
            · -- via the declared method list
              rcases findEList_char obj ms _ _ hml with ⟨f, hfm, hcase⟩
              have hfenv : f ∈ envObjs env := homem f (by
                rw [hty, typeObjs]
                exact List.mem_append_left _ (objsFam_mem_self _ _ hfm))
              rcases hcase with ⟨hoid, heq⟩ | hInner
              · -- the method itself is the target
                rw [heq] at hall ⊢
                simp only [List.cons_append, List.nil_append] at hall ⊢
                simp only [List.all_cons, List.all_nil, Bool.and_eq_true, and_true] at hall
                have hid := elemOk_goId f.pkgPath f.name (by
                  have hgid : Object.idStr f = goId f.pkgPath f.name := rfl
                  rw [← hgid]
                  exact hall.2)
                have hidname : f.idStr = f.name := hid.1
                rw [FindObject]
                rw [parse_joinDots _ (by simp) (by
                  simp only [List.all_cons, List.all_nil, Bool.and_eq_true, and_true]
                  exact ⟨hall.1, hall.2⟩)]
                simp only [hl]
                rw [hty]
                rw [findD]
                rw [hidname]
                rw [if_neg (validIdent_ne_op f.name opUnderlying hid.2 (by decide))]
                rw [find?_map_nodup Object.name ms hmsnd f hfm]
                simp only [if_pos rfl]
                have hfo : f = obj := hinj f hfenv obj hobj hoid
                rw [hfo]
                simp
              · -- the target is inside the method's type
                have hwf2 : wfType f.ty = true := wfObjs_mem ms f hwo.1.2 hfm
                rcases findE_replay obj (sizeOf f.ty) f.ty _ _ (le_refl _) hInner hwf2
                  with ⟨suf, heq, hsne, hdec⟩
                rw [heq] at hall ⊢
                simp only [List.cons_append, List.nil_append, List.all_cons,
                  Bool.and_eq_true] at hall
                rcases hdec hall.2.2 with ⟨g, hgm, hgo, hgd⟩
                have hid := elemOk_goId f.pkgPath f.name (by
                  have : Object.idStr f = goId f.pkgPath f.name := rfl
                  rw [← this]
                  exact hall.2.1)
                have hidname : f.idStr = f.name := hid.1
                rw [FindObject]
                rw [parse_joinDots _ (by simp) (by
                  simp only [List.cons_append, List.nil_append, List.all_cons,
                    Bool.and_eq_true]
                  exact ⟨hall.1, hall.2.1, hall.2.2⟩)]
                simp only [List.cons_append, List.nil_append]
                simp only [hl]
                rw [hty]
                rw [findD]
                rw [hidname]
                rw [if_neg (validIdent_ne_op f.name opUnderlying hid.2 (by decide))]
                rw [find?_map_nodup Object.name ms hmsnd f hfm]
                simp only [if_neg hsne]
                have hgenv : g ∈ envObjs env := homem g (by
                  rw [hty, typeObjs]
                  exact List.mem_append_left _ (objsFam_mem_sub ms f g hfm hgm))
                have : g = obj := hinj g hgenv obj hobj hgo
                rw [← this]
                exact hgd
            · -- via the underlying type
              have hwfu : wfType u = true := hwo.2
              rcases findE_replay obj (sizeOf u) u _ _ (le_refl _) hund hwfu
                with ⟨suf, heq, hsne, hdec⟩
              rw [heq] at hall ⊢
              simp only [List.cons_append, List.nil_append, List.all_cons,
                Bool.and_eq_true] at hall
              rcases hdec hall.2.2 with ⟨g, hgm, hgo, hgd⟩
              rw [FindObject]
              rw [parse_joinDots _ (by simp) (by
                simp only [List.cons_append, List.nil_append, List.all_cons,
                  Bool.and_eq_true]
                exact ⟨hall.1, hall.2.1, hall.2.2⟩)]
              simp only [List.cons_append, List.nil_append]
              simp only [hl]
              rw [hty]
              rw [findD]
              rw [if_pos rfl]
              have hgenv : g ∈ envObjs env := homem g (by
                rw [hty, typeObjs]
                exact List.mem_append_right _ hgm)
              have : g = obj := hinj g hgenv obj hobj hgo
              rw [← this]
              exact hgd
        | none =>
            rw [hfp] at hpath
            simp only at hpath
            cases hsp : secondPass obj (nontypesOf pkg.scope (scopeNames pkg.scope)) with
            | some r =>
                rw [hsp] at hpath
                simp only [Except.ok.injEq] at hpath
                subst hpath
                rcases secondPass_char obj _ _ hsp with ⟨o, hom, hfind⟩
                rcases nontypesOf_sub pkg.scope _ o hom with ⟨nm, hl⟩
                have ho := lookupScope_props pkg.scope nm o hl
                have hwo : wfType o.ty = true := wfObjs_mem _ o hwfp.2 ho.2
                rcases findE_replay obj (sizeOf o.ty) o.ty _ _ (le_refl _) hfind hwo
                  with ⟨suf, heq, hsne, hdec⟩
                rw [heq] at hall ⊢
                simp only [List.cons_append, List.nil_append, List.all_cons,
                  Bool.and_eq_true] at hall
                rcases hdec hall.2 with ⟨g, hgm, hgo, hgd⟩
                rw [FindObject]
                rw [parse_joinDots _ (by simp) (by
                  simp only [List.cons_append, List.nil_append, List.all_cons,
                    Bool.and_eq_true]
                  exact ⟨hall.1, hall.2⟩)]
                simp only [List.cons_append, List.nil_append]
                rw [← ho.1] at hl
                simp only [hl]
                rw [if_neg hsne]
                have hgenv : g ∈ envObjs env :=
                  envObjs_of_scope env pkg hpkgmem g (objsFam_mem_sub _ o g ho.2 hgm)
                have : g = obj := hinj g hgenv obj hobj hgo
                rw [← this]
                exact hgd
            | none =>
                rw [hsp] at hpath
                exact absurd hpath (by simp)

/-!
Part 9: claim C1 — object-path round trip.

As stated, the claim fails on the code: for an unexported struct field or
method, `Of` emits the qualified identifier `types.Id` = "pkgpath.name",
whose dot is then re-split by the decoder's `strings.Split`, so
`FindObject` cannot resolve the path (see the counterexample). The round
trip does hold whenever every element of the emitted path is a reserved
token, a plain identifier (in particular, every exported name), or a tuple
index — the amended claim.
-/

/-- Claim C1 (amended): in a well-formed environment, for any two objects of
a package P whose paths encode with only reserved tokens, plain identifiers
and indices as elements, FindObject(P, Of(O)) returns exactly O, and
decoding the two paths of distinct objects yields distinct results. -/
theorem claim_c1_roundtrip_amended
    (env : List Package) (pp : String) (pkg : Package)
    (o1 o2 : Object) (e1 e2 : List PElem) (s1 s2 : String)
    (henv : envWf env = true)
    (h1m : o1 ∈ envObjs env) (h2m : o2 ∈ envObjs env)
    (h1p : o1.pkgPath = some pp) (h2p : o2.pkgPath = some pp)
    (hpkg : lookupPkg env pp = some pkg)
    (h1path : pathOf env o1 = .ok e1) (h2path : pathOf env o2 = .ok e2)
    (h1ok : e1.all elemOk = true) (h2ok : e2.all elemOk = true)
    (h1of : Of env o1 = .ok s1) (h2of : Of env o2 = .ok s2) :
    FindObject pkg s1 = .ok o1 ∧ FindObject pkg s2 = .ok o2 ∧
      (o1 ≠ o2 → FindObject pkg s1 ≠ FindObject pkg s2) := by
  have k1 : s1 = joinDots (e1.map elemStr) := by
    rw [Of, h1path] at h1of
    simp only [Except.ok.injEq] at h1of
    exact h1of.symm
  have k2 : s2 = joinDots (e2.map elemStr) := by
    rw [Of, h2path] at h2of
    simp only [Except.ok.injEq] at h2of
    exact h2of.symm
  have d1 : FindObject pkg s1 = .ok o1 := by
    rw [k1]
    exact pathOf_decode env pp pkg o1 e1 henv h1m h1p hpkg h1path h1ok
  have d2 : FindObject pkg s2 = .ok o2 := by
    rw [k2]
    exact pathOf_decode env pp pkg o2 e2 henv h2m h2p hpkg h2path h2ok
  refine ⟨d1, d2, fun hne => ?_⟩
  rw [d1, d2]
  intro hcontra
  simp only [DRes.ok.injEq] at hcontra
  exact hne hcontra

/-! Concrete packages used to exhibit and exercise the C1 behaviour. -/

/-- An unexported field x of package-scope type T in package p. -/
def cObjX : Object := .mk 2 .varK "x" (some "p") true .basic

def cObjT : Object := .mk 1 .tname "T" (some "p") false (.named [] (.struct [cObjX]))

def cPkg : Package := ⟨"p", [cObjT]⟩

def cEnv : List Package := [cPkg]

/-- An exported field X and an exported method M on package-scope type T. -/
def wObjX : Object := .mk 3 .varK "X" (some "p") true .basic

def wObjM : Object := .mk 2 .funcK "M" (some "p") false (.signature true .basic .basic)

def wObjT : Object := .mk 1 .tname "T" (some "p") false (.named [wObjM] (.struct [wObjX]))

def wPkg : Package := ⟨"p", [wObjT]⟩

def wEnv : List Package := [wPkg]

theorem cObjX_pathOf : pathOf cEnv cObjX = .ok
    [PElem.str "T", PElem.str opUnderlying, PElem.str "p.x"] := by
  simp [pathOf, cEnv, cPkg, cObjT, cObjX, lookupPkg, lookupScope, scopeNames,
    sortStrings, sortL, insertStable, checkKind, firstPass, tryNamedEntry,
    findEList, findE, nontypesOf, secondPass, Object.oid, Object.name,
    Object.kind, Object.pkgPath, Object.isField, Object.ty, Object.idStr,
    goId, isExported, isUpperB, opUnderlying]

/-- Claim C1 counterexample: for the unexported field x of
`type T struct (x int)` in package p, the encoder succeeds and produces
"T.!underlying.p.x" — the qualified Id of the field — but decoding that
path in the same package fails, because the dot inside "p.x" is re-split:
FindObject reports that struct T has no field "p". So Decode(Encode(x), p)
is an error, not x, refuting the claim as stated. -/
theorem claim_c1_counterexample :
    Of cEnv cObjX = .ok "T.!underlying.p.x" ∧
    FindObject cPkg "T.!underlying.p.x" = .err "in struct: no field p" := by
  constructor
  · simp only [Of, cObjX_pathOf]
    rfl
  · have hp : parse "T.!underlying.p.x" =
        .ok [PElem.str "T", PElem.str "!underlying", PElem.str "p", PElem.str "x"] := by
      rfl
    rw [FindObject, hp]
    simp only [lookupScope, cPkg, cObjT, cObjX]
    simp [findD, Object.ty, Object.idStr, Object.name, Object.pkgPath, goId,
      isExported, isUpperB, opUnderlying, List.find?]
    rw [show decide (("p.x" : String) = "p") = false from by decide]

theorem wObjX_pathOf : pathOf wEnv wObjX = .ok
    [PElem.str "T", PElem.str opUnderlying, PElem.str "X"] := by
  simp [pathOf, wEnv, wPkg, wObjT, wObjM, wObjX, lookupPkg, lookupScope, scopeNames,
    sortStrings, sortL, insertStable, checkKind, firstPass, tryNamedEntry,
    findEList, findE, nontypesOf, secondPass, Object.oid, Object.name,
    Object.kind, Object.pkgPath, Object.isField, Object.ty, Object.idStr,
    goId, isExported, isUpperB, opUnderlying]

theorem wObjT_pathOf : pathOf wEnv wObjT = .ok [PElem.str "T"] := by
  simp [pathOf, wEnv, wPkg, wObjT, lookupPkg, lookupScope, Object.oid,
    Object.name, Object.pkgPath]

theorem wEnv_wf : envWf wEnv = true := by
  simp [envWf, pkgWf, nodupB, wfObjs, wfType, wfTypes, envObjs, pkgObjs,
    objsFam, typeObjs, typesObjs, wEnv, wPkg, wObjT, wObjM, wObjX,
    Object.oid, Object.name, Object.ty, Object.idStr, goId, isExported, isUpperB]

/-- Claim C1 witness: the amended round trip evaluated on a concrete
package with an exported field X of type T and the type name T itself. -/
theorem claim_c1_witness :
    FindObject wPkg "T.!underlying.X" = .ok wObjX ∧
    FindObject wPkg "T" = .ok wObjT ∧
    (wObjX ≠ wObjT → FindObject wPkg "T.!underlying.X" ≠ FindObject wPkg "T") :=
  claim_c1_roundtrip_amended wEnv "p" wPkg wObjX wObjT
    [PElem.str "T", PElem.str opUnderlying, PElem.str "X"] [PElem.str "T"]
    "T.!underlying.X" "T"
    wEnv_wf
    (by simp [envObjs, pkgObjs, objsFam, typeObjs, typesObjs, wEnv, wPkg,
      wObjT, wObjM, wObjX, Object.ty])
    (by simp [envObjs, pkgObjs, objsFam, typeObjs, typesObjs, wEnv, wPkg,
      wObjT, wObjM, wObjX, Object.ty])
    rfl rfl rfl
    wObjX_pathOf wObjT_pathOf
    (by decide) (by decide)
    (by simp only [Of, wObjX_pathOf]; rfl)
    (by simp only [Of, wObjT_pathOf]; rfl)

/-!
Part 10: claim C8 — decoder totality.

The claim fails as stated: `FindObject` asserts `path[0].(string)`, so a
path whose first element parses as an integer (for example "0") crashes the
process instead of returning an error; a negative tuple index (for example
"-1", which strconv.Atoi accepts) crashes in `Tuple.At`. On every other
input the decoder is total: it returns an object or a structured error.
-/

def numNonneg : PElem → Bool
  | .num k => decide (0 ≤ k)
  | .str _ => true

theorem findD_no_panic :
    ∀ (n : Nat) (T : GoType) (path : List PElem),
      sizeOf T ≤ n → path.all numNonneg = true →
      ∀ msg, findD path T ≠ .panics msg := by
  intro n
  induction n using Nat.strong_induction_on with
  | _ n ih =>
  intro T path hn hp msg
  cases T with
  | basic => rw [findD]; simp
  | pointer t =>
      rw [findD]
      exact ih (sizeOf t) (by simp at hn ⊢; omega) t path (le_refl _) hp msg
  | slice t =>
      rw [findD]
      exact ih (sizeOf t) (by simp at hn ⊢; omega) t path (le_refl _) hp msg
  | array t =>
      rw [findD]
      exact ih (sizeOf t) (by simp at hn ⊢; omega) t path (le_refl _) hp msg
  | chan t =>
      rw [findD]
      exact ih (sizeOf t) (by simp at hn ⊢; omega) t path (le_refl _) hp msg
  | mapT k v =>
      cases path with
      | nil => rw [findD]; simp
      | cons e rest =>
          rw [findD]
          simp only [List.all_cons, Bool.and_eq_true] at hp
          by_cases h1 : e = PElem.str opKey
          · rw [if_pos h1]
            exact ih (sizeOf k) (by simp at hn ⊢; omega) k rest (le_refl _) hp.2 msg
          · rw [if_neg h1]
            by_cases h2 : e = PElem.str opValue
            · rw [if_pos h2]
              exact ih (sizeOf v) (by simp at hn ⊢; omega) v rest (le_refl _) hp.2 msg
            · rw [if_neg h2]
              simp
  | named ms u =>
      cases path with
      | nil => rw [findD]; simp
      | cons e rest =>
          simp only [List.all_cons, Bool.and_eq_true] at hp
          cases e with
          | num m => rw [findD]; simp
          | str name =>
              rw [findD]
              by_cases h1 : name = opUnderlying
              · rw [if_pos h1]
                exact ih (sizeOf u) (by simp at hn ⊢; omega) u rest (le_refl _) hp.2 msg
              · rw [if_neg h1]
                cases hf : ms.find? (fun m => m.name = name) with
                | some m =>
                    have hmem := List.mem_of_find?_eq_some hf
                    by_cases h2 : rest = []
                    · simp [h2]
                    · simp only [if_neg h2]
                      refine ih (sizeOf m.ty) ?_ m.ty rest (le_refl _) hp.2 msg
                      have ha := Object.sizeOf_ty_lt m
                      have hb := List.sizeOf_lt_of_mem hmem
                      simp at hn
                      omega
                | none => simp
  | struct fs =>
      cases path with
      | nil => rw [findD]; simp
      | cons e rest =>
          simp only [List.all_cons, Bool.and_eq_true] at hp
          cases e with
          | num m => rw [findD]; simp
          | str id =>
              rw [findD]
              cases hf : fs.find? (fun f => f.idStr = id) with
              | some f =>
                  have hmem := List.mem_of_find?_eq_some hf
                  by_cases h2 : rest = []
                  · simp [h2]
                  · simp only [if_neg h2]
                    refine ih (sizeOf f.ty) ?_ f.ty rest (le_refl _) hp.2 msg
                    have ha := Object.sizeOf_ty_lt f
                    have hb := List.sizeOf_lt_of_mem hmem
                    simp at hn
                    omega
              | none => simp
  | iface ms =>
      cases path with
      | nil => rw [findD]; simp
      | cons e rest =>
          simp only [List.all_cons, Bool.and_eq_true] at hp
          cases e with
          | num m => rw [findD]; simp
          | str id =>
              rw [findD]
              cases hf : ms.find? (fun m => m.idStr = id) with
              | some m =>
                  have hmem := List.mem_of_find?_eq_some hf
                  by_cases h2 : rest = []
                  · simp [h2]
                  · simp only [if_neg h2]
                    refine ih (sizeOf m.ty) ?_ m.ty rest (le_refl _) hp.2 msg
                    have ha := Object.sizeOf_ty_lt m
                    have hb := List.sizeOf_lt_of_mem hmem
                    simp at hn
                    omega
              | none => simp
  | tuple ts =>
      cases path with
      | nil => rw [findD]; simp
      | cons e rest =>
          simp only [List.all_cons, Bool.and_eq_true] at hp
          cases e with
          | str s => rw [findD]; simp
          | num m =>
              rw [findD]
              by_cases h1 : (ts.length : Int) ≤ m
              · rw [dif_pos h1]
                simp
              · rw [dif_neg h1]
                have hm : ¬ (m < 0) := by
                  have := hp.1
                  simp only [numNonneg, decide_eq_true_eq] at this
                  omega
                rw [dif_neg hm]
                have hmem : ts.get ⟨m.toNat, by omega⟩ ∈ ts := List.get_mem ts _ _
                refine ih (sizeOf (ts.get ⟨m.toNat, by omega⟩)) ?_ _ rest (le_refl _) hp.2 msg
                have hb := List.sizeOf_lt_of_mem hmem
                simp at hn
                omega
  | signature b ps rs =>
      cases path with
      | nil => rw [findD]; simp
      | cons e rest =>
          simp only [List.all_cons, Bool.and_eq_true] at hp
          cases e with
          | num m => rw [findD]; simp
          | str name =>
              rw [findD]
              by_cases h1 : name = opParams
              · rw [if_pos h1]
                exact ih (sizeOf ps) (by simp at hn ⊢; omega) ps rest (le_refl _) hp.2 msg
              · rw [if_neg h1]
                by_cases h2 : name = opResults
                · rw [if_pos h2]
                  exact ih (sizeOf rs) (by simp at hn ⊢; omega) rs rest (le_refl _) hp.2 msg
                · rw [if_neg h2]
                  simp

/-- Claim C8 (amended): FindObject neither returns anything but an object
or a structured error — it cannot crash — on every path string whose first
parsed element is an identifier or reserved token and whose integer
elements are all non-negative. (As stated the claim is false: an integer
first element, or a negative tuple index, crashes — see the
counterexample.) -/
theorem claim_c8_decoder_totality_amended
    (pkg : Package) (s : String) (nm : String) (rest : List PElem)
    (hp : parse s = .ok (.str nm :: rest))
    (hn : rest.all numNonneg = true) :
    ∀ msg, FindObject pkg s ≠ .panics msg := by
  intro msg
  rw [FindObject, hp]
  simp only
  cases hl : lookupScope pkg.scope nm with
  | none => simp
  | some o =>
      simp only
      by_cases h2 : rest = []
      · simp [h2]
      · simp only [if_neg h2]
        exact findD_no_panic (sizeOf o.ty) o.ty rest (le_refl _) hn msg

/-- Claim C8 counterexample: on the path "0" — a valid path string whose
first element is an integer token — FindObject does not return an object
or an error: the Go code panics on the path[0].(string) type assertion,
for any package (shown here on the concrete package p). -/
theorem claim_c8_counterexample :
    FindObject cPkg "0" =
      .panics "interface conversion: interface is int, not string" := by
  rfl

/-- Claim C8 witness: the amended totality statement evaluated on the
concrete package p, the path "T.!underlying.p.x" and the concrete panic
message of the decoder's type-assertion crash. -/
theorem claim_c8_witness :
    FindObject cPkg "T.!underlying.p.x" ≠
      .panics "interface conversion: interface is int, not string" :=
  claim_c8_decoder_totality_amended cPkg "T.!underlying.p.x" "T"
    [PElem.str "!underlying", PElem.str "p", PElem.str "x"]
    (by rfl) (by decide) "interface conversion: interface is int, not string"

/-!
Part 11: claim C9 — encoder failure cases.
-/

/-- Claim C9: Of fails for every object that is a universe entity (nil
package), and for every object not found at package scope that is a package
name, label, constant, type name or builtin, or a non-field variable, or a
non-method function. -/
theorem claim_c9_encoder_failures (env : List Package) (obj : Object) :
    (obj.pkgPath = none → ∃ msg, Of env obj = .error msg) ∧
    (∀ pp pkg, obj.pkgPath = some pp → lookupPkg env pp = some pkg →
      (lookupScope pkg.scope obj.name).any (fun o => o.oid = obj.oid) = false →
      (obj.kind = .pkgName ∨ obj.kind = .labelK ∨ obj.kind = .constK ∨
       obj.kind = .tname ∨ obj.kind = .builtinK ∨
       (obj.kind = .varK ∧ obj.isField = false) ∨
       (obj.kind = .funcK ∧ hasRecv obj.ty = false)) →
      ∃ msg, Of env obj = .error msg) := by
  constructor
  · intro hpp
    refine ⟨"universal objects have no path", ?_⟩
    rw [Of, pathOf, hpp]
  · intro pp pkg hpp hpkg hmiss hkind
    have hck : ∃ msg, checkKind obj = some msg := by
      rcases hkind with h | h | h | h | h | ⟨h, h2⟩ | ⟨h, h2⟩
      · rw [checkKind, h]; exact ⟨_, rfl⟩
      · rw [checkKind, h]; exact ⟨_, rfl⟩
      · rw [checkKind, h]; exact ⟨_, rfl⟩
      · rw [checkKind, h]; exact ⟨_, rfl⟩
      · rw [checkKind, h]; exact ⟨_, rfl⟩
      · rw [checkKind, h]; rw [h2]; exact ⟨_, rfl⟩
      · rw [checkKind, h]; rw [h2]; exact ⟨_, rfl⟩
    rcases hck with ⟨msg, hck⟩
    refine ⟨msg, ?_⟩
    rw [Of, pathOf, hpp]
    simp only
    rw [hpkg]
    simp only
    rw [if_neg (by simp [hmiss]), hck]

/-- A universe (nil-package) constant and a block-scoped constant of
package p, both outside the package scope. -/
def uObj : Object := .mk 7 .builtinK "len" none false .basic

def locObj : Object := .mk 8 .constK "c" (some "p") false .basic

/-- Claim C9 witness: the failure cases evaluated on a universe builtin and
on a block-scoped constant of the concrete package p. -/
theorem claim_c9_witness :
    (∃ msg, Of cEnv uObj = .error msg) ∧ (∃ msg, Of cEnv locObj = .error msg) :=
  ⟨(claim_c9_encoder_failures cEnv uObj).1 rfl,
   (claim_c9_encoder_failures cEnv locObj).2 "p" cPkg rfl rfl (by rfl)
     (Or.inr (Or.inr (Or.inl rfl)))⟩

/-!
Part 12: the analysis driver core (internal/checker, checker.go).

A Lemma value is modelled by its reflected type name plus an opaque
payload; Go's reflect.Type identity is type-name identity. Packages of the
loader are identified by import path; action identity (a, pkg) by the pair
of names. Object identity stays oid-based as before.
-/

structure Lemma where
  tyName : String
  val : Nat
deriving DecidableEq, Repr

/-- exportedFrom (checker.go): whether obj may be visible to a package
importing pkg. Pointer equality obj.Pkg() == pkg is path equality here. -/
def exportedFrom (obj : Object) (pkgPath : String) : Bool :=
  match obj.kind with
  | .funcK => (isExported obj.name && obj.pkgPath == some pkgPath) || hasRecv obj.ty
  | .varK => (isExported obj.name && obj.pkgPath == some pkgPath) || obj.isField
  | .tname => true
  | .constK => true
  | _ => false

/-- Go map update m[obj] = lemma on an association list keyed by object
identity: replace the existing entry or append a new one. -/
def insertObjL (m : List (Object × Lemma)) (o : Object) (l : Lemma) :
    List (Object × Lemma) :=
  if m.any (fun p => p.1.oid = o.oid) then
    m.map (fun p => if p.1.oid = o.oid then (o, l) else p)
  else m ++ [(o, l)]

/-- The object-lemma loop of inheritLemmas (checker.go) for one lemma type:
every (object, lemma) pair of the dependency's store is copied into the
action's store exactly when exportedFrom holds; the serialize debug flag
('s') only round-trips the value through gob and is not modelled. -/
def inheritObjLemmas (depPkgPath : String) :
    List (Object × Lemma) → List (Object × Lemma) → List (Object × Lemma)
  | [], act => act
  | ol :: rest, act =>
      if exportedFrom ol.1 depPkgPath then
        inheritObjLemmas depPkgPath rest (insertObjL act ol.1 ol.2)
      else inheritObjLemmas depPkgPath rest act

/-- lemmaIndex (checker.go): linear scan of the analysis's declared lemma
types; `none` is the log.Panicf case. -/
def lemmaIndex : List String → String → Option Nat
  | [], _ => none
  | t :: ts, ty => if t = ty then some 0 else (lemmaIndex ts ty).map (· + 1)

/-- The mutable state of one action that its fact setters touch. The two
`active` bits model unit.SetObjectLemma / unit.SetPackageLemma being set to
nil after Run. -/
structure ActState where
  setterActive : Bool
  pkgSetterActive : Bool
  pkgPath : String
  lemmaTypes : List String
  objLemmas : List (List (Object × Lemma))
  pkgLemmas : List (List (String × Lemma))

def updateNth (i : Nat) (f : α → α) : List α → List α
  | [] => []
  | x :: xs => match i with
      | 0 => f x :: xs
      | j + 1 => x :: updateNth j f xs

def insertPkgL (m : List (String × Lemma)) (p : String) (l : Lemma) :
    List (String × Lemma) :=
  if m.any (fun q => q.1 = p) then
    m.map (fun q => if q.1 = p then (p, l) else q)
  else m ++ [(p, l)]

/-- setObjLemma (checker.go). The result is the panic message, if any, and
the action state afterwards; every contract violation leaves the state
untouched. Checks in source order: called after Run; object of another
package; undeclared lemma type. -/
def setObjLemma (act : ActState) (obj : Object) (l : Lemma) :
    Option String × ActState :=
  if !act.setterActive then
    (some "Unit.SetObjectLemma called after Run", act)
  else if obj.pkgPath ≠ some act.pkgPath then
    (some "cannot set lemmas on objects belonging another package", act)
  else
    match lemmaIndex act.lemmaTypes l.tyName with
    | none => (some "type is not a Lemma type of analysis", act)
    | some i =>
        (none, { act with objLemmas := updateNth i (fun m => insertObjL m obj l) act.objLemmas })

/-- setPkgLemma (checker.go): the package key is always the action's own
package. -/
def setPkgLemma (act : ActState) (l : Lemma) : Option String × ActState :=
  if !act.pkgSetterActive then
    (some "Unit.SetPackageLemma called after Run", act)
  else
    match lemmaIndex act.lemmaTypes l.tyName with
    | none => (some "type is not a Lemma type of analysis", act)
    | some i =>
        (none, { act with pkgLemmas := updateNth i (fun m => insertPkgL m act.pkgPath l) act.pkgLemmas })

/-!
execOnce (checker.go): the per-action execution sequence after all
dependencies have completed. What matters to the claims: the aggregation
of failed prerequisites, the ill-typed check, the Run call and the output
type check. Each dependency is summarised by its action string "a@pkg" and
its error outcome; `runErr`/`outputTyOk` stand for the opaque Run callback
and its produced output.
-/

structure DepRes where
  nameStr : String
  err : Option String

structure ExecOut where
  err : Option String
  ranRun : Bool

def execOnce (deps : List DepRes) (illTyped runDespiteErrors : Bool)
    (runErr : Option String) (outputTyOk : Bool) : ExecOut :=
  let failed := (deps.filter (fun d => d.err.isSome)).map (fun d => d.nameStr)
  if failed ≠ [] then
    { err := some ("failed prerequisites: " ++
        String.intercalate ", " (sortStrings failed)),
      ranRun := false }
  else if illTyped && !runDespiteErrors then
    { err := some "analysis skipped due to errors in package", ranRun := false }
  else
    match runErr with
    | some e => { err := some e, ranRun := true }
    | none =>
        { err := if outputTyOk then none
                 else some "analysis produced Output not matching declared OutputType",
          ranRun := true }

/-!
mkAction (checker.go): the action graph. Go memoizes nodes by (analysis,
package); the dependency lists attached to each node are independent of
memoization, so the graph is modelled as its unfolding into a tree.
`Analysis.requiresA` being an inductive list makes Requires acyclic, and
`Pkg.imports` being inductive makes the import graph acyclic — both are
preconditions validated elsewhere in the source.
-/

inductive Analysis where
  | mk (name : String) (lemmaTypes : List String) (requiresA : List Analysis)
      (runDespiteErrors : Bool)

def Analysis.name : Analysis → String
  | .mk n _ _ _ => n

def Analysis.lemmaTypes : Analysis → List String
  | .mk _ l _ _ => l

def Analysis.requiresA : Analysis → List Analysis
  | .mk _ _ r _ => r

inductive Pkg where
  | mk (path : String) (imports : List (String × Pkg))

def Pkg.path : Pkg → String
  | .mk p _ => p

def Pkg.imports : Pkg → List (String × Pkg)
  | .mk _ i => i

inductive ActionNode where
  | mk (aname ppath : String) (deps : List ActionNode)

def ActionNode.aname : ActionNode → String
  | .mk a _ _ => a

def ActionNode.ppath : ActionNode → String
  | .mk _ p _ => p

def ActionNode.deps : ActionNode → List ActionNode
  | .mk _ _ d => d

/-- The iteration order of `for path := range pkg.Imports` followed by
sort.Strings: the import map entries in ascending key order. -/
def sortImports (l : List (String × Pkg)) : List (String × Pkg) :=
  sortL (fun a b => a.1 < b.1) l

theorem Analysis.sizeOf_requiresA_lt (a : Analysis) : sizeOf a.requiresA < sizeOf a := by
  cases a
  simp [Analysis.requiresA]
  omega

theorem Pkg.sizeOf_imports_lt (p : Pkg) : sizeOf p.imports < sizeOf p := by
  cases p
  simp [Pkg.imports]

theorem sortImports_mem (l : List (String × Pkg)) (x : String × Pkg)
    (h : x ∈ sortImports l) : x ∈ l := by
  rw [sortImports] at h
  exact (sortL_perm (fun a b => a.1 < b.1) l).mem_iff.mp h

def mkAction (a : Analysis) (p : Pkg) : ActionNode :=
  .mk a.name p.path
    ((a.requiresA.attach.map (fun r => mkAction r.1 p)) ++
     (if a.lemmaTypes = [] then []
      else (sortImports p.imports).attach.map (fun ip => mkAction a ip.1.2)))
termination_by (sizeOf p, sizeOf a)
decreasing_by
  · apply Prod.Lex.right
    have h1 := List.sizeOf_lt_of_mem r.2
    have h2 := Analysis.sizeOf_requiresA_lt a
    omega
  · apply Prod.Lex.left
    have h1 := List.sizeOf_lt_of_mem (sortImports_mem _ _ ip.2)
    have h2 := Pkg.sizeOf_imports_lt p
    have h3 : sizeOf ip.1.2 < sizeOf ip.1 := by
      cases hip : ip.1
      simp
    omega

/-!
Part 13: claims C2 (failed prerequisites) and C4 (fact-store contract).
-/

/-- Claim C2: if any dependency of an action finished with an error, the
action's Run callback is not invoked, and the action's error is
"failed prerequisites: " followed by the string forms of exactly the failed
dependency actions (a permutation of them and nothing else), joined with
", " in ascending order. -/
theorem claim_c2_failed_prerequisites (deps : List DepRes)
    (illTyped runDespiteErrors : Bool) (runErr : Option String) (outputTyOk : Bool)
    (h : deps.any (fun d => d.err.isSome) = true) :
    (execOnce deps illTyped runDespiteErrors runErr outputTyOk).ranRun = false ∧
    ∃ names,
      (execOnce deps illTyped runDespiteErrors runErr outputTyOk).err =
        some ("failed prerequisites: " ++ String.intercalate ", " names) ∧
      names.Perm ((deps.filter (fun d => d.err.isSome)).map (fun d => d.nameStr)) ∧
      names.Sorted (· ≤ ·) := by
  have hfail : (deps.filter (fun d => d.err.isSome)).map (fun d => d.nameStr) ≠ [] := by
    simp only [List.any_eq_true] at h
    rcases h with ⟨d, hd, hds⟩
    have : d ∈ deps.filter (fun d => d.err.isSome) := List.mem_filter.mpr ⟨hd, hds⟩
    intro hnil
    rw [List.map_eq_nil_iff] at hnil
    rw [hnil] at this
    simp at this
  have hrw : execOnce deps illTyped runDespiteErrors runErr outputTyOk =
      { err := some ("failed prerequisites: " ++ String.intercalate ", "
          (sortStrings ((deps.filter (fun d => d.err.isSome)).map (fun d => d.nameStr)))),
        ranRun := false } := by
    rw [execOnce.eq_def]
    simp only [if_pos hfail]
  rw [hrw]
  exact ⟨rfl, sortStrings _, rfl, sortStrings_perm _, sortStrings_sorted _⟩

/-- Claim C2 witness: a dependency list with two failed and one successful
dependency; the action fails with the two failed actions sorted. -/
theorem claim_c2_witness :
    (execOnce [⟨"b@p", some "boom"⟩, ⟨"a@p", none⟩, ⟨"c@p", some "x"⟩]
      false false none true).ranRun = false ∧
    ∃ names,
      (execOnce [⟨"b@p", some "boom"⟩, ⟨"a@p", none⟩, ⟨"c@p", some "x"⟩]
        false false none true).err =
        some ("failed prerequisites: " ++ String.intercalate ", " names) ∧
      names.Perm ((([⟨"b@p", some "boom"⟩, ⟨"a@p", none⟩, ⟨"c@p", some "x"⟩] :
        List DepRes).filter (fun d => d.err.isSome)).map (fun d => d.nameStr)) ∧
      names.Sorted (· ≤ ·) :=
  claim_c2_failed_prerequisites _ false false none true (by decide)

theorem lemmaIndex_none_iff (ts : List String) (ty : String) :
    lemmaIndex ts ty = none ↔ ty ∉ ts := by
  induction ts with
  | nil => simp [lemmaIndex]
  | cons t ts ih =>
      rw [lemmaIndex]
      by_cases h : t = ty
      · simp [h]
      · rw [if_neg h]
        constructor
        · intro hn hc
          rcases List.mem_cons.mp hc with hc1 | hc2
          · exact h hc1.symm
          · cases hli : lemmaIndex ts ty with
            | some i => rw [hli] at hn; simp at hn
            | none => exact (ih.mp hli) hc2
        · intro hn
          have hnotin : ty ∉ ts := fun hc => hn (List.mem_cons_of_mem _ hc)
          rw [ih.mpr hnotin]
          rfl

/-- Claim C4: calling the object-lemma setter with an undeclared lemma
type, or with an object of another package, or after Run has deactivated
the setter, yields a contract-violation message and returns the action
state unchanged; likewise the package-lemma setter with an undeclared type
or after Run. -/
theorem claim_c4_contract_enforcement (act : ActState) (obj : Object) (l l2 : Lemma) :
    ((l.tyName ∉ act.lemmaTypes ∨ obj.pkgPath ≠ some act.pkgPath ∨
        act.setterActive = false) →
      ∃ msg, setObjLemma act obj l = (some msg, act)) ∧
    ((l2.tyName ∉ act.lemmaTypes ∨ act.pkgSetterActive = false) →
      ∃ msg, setPkgLemma act l2 = (some msg, act)) := by
  constructor
  · intro hviol
    rw [setObjLemma]
    by_cases h1 : act.setterActive = false
    · rw [h1]
      exact ⟨_, rfl⟩
    · have h1t : act.setterActive = true := by
        cases hv : act.setterActive
        · exact absurd hv h1
        · rfl
      rw [h1t]
      simp only [Bool.not_true, Bool.false_eq_true, if_false]
      by_cases h2 : obj.pkgPath ≠ some act.pkgPath
      · rw [if_pos h2]
        exact ⟨_, rfl⟩
      · rw [if_neg h2]
        have h3 : l.tyName ∉ act.lemmaTypes := by
          rcases hviol with h | h | h
          · exact h
          · exact absurd h h2
          · exact absurd h h1
        rw [(lemmaIndex_none_iff _ _).mpr h3]
        exact ⟨_, rfl⟩
  · intro hviol
    rw [setPkgLemma]
    by_cases h1 : act.pkgSetterActive = false
    · rw [h1]
      exact ⟨_, rfl⟩
    · have h1t : act.pkgSetterActive = true := by
        cases hv : act.pkgSetterActive
        · exact absurd hv h1
        · rfl
      rw [h1t]
      simp only [Bool.not_true, Bool.false_eq_true, if_false]
      have h3 : l2.tyName ∉ act.lemmaTypes := by
        rcases hviol with h | h
        · exact h
        · exact absurd h h1
      rw [(lemmaIndex_none_iff _ _).mpr h3]
      exact ⟨_, rfl⟩

/-- A concrete action state: analysis declaring lemma type F over package
p, with live setters. -/
def cAct : ActState :=
  { setterActive := true, pkgSetterActive := true, pkgPath := "p",
    lemmaTypes := ["F"], objLemmas := [[]], pkgLemmas := [[]] }

/-- Claim C4 witness: setting an F lemma on an object of package q (not p)
fails and leaves the state unchanged; setting a package lemma of undeclared
type G fails likewise. -/
theorem claim_c4_witness :
    (∃ msg, setObjLemma cAct (.mk 31 .funcK "G" (some "q") false .basic)
      ⟨"F", 0⟩ = (some msg, cAct)) ∧
    (∃ msg, setPkgLemma cAct ⟨"G", 0⟩ = (some msg, cAct)) :=
  ⟨(claim_c4_contract_enforcement cAct (.mk 31 .funcK "G" (some "q") false .basic)
      ⟨"F", 0⟩ ⟨"G", 0⟩).1 (Or.inr (Or.inl (by decide))),
   (claim_c4_contract_enforcement cAct (.mk 31 .funcK "G" (some "q") false .basic)
      ⟨"F", 0⟩ ⟨"G", 0⟩).2 (Or.inl (by decide))⟩

/-!
Part 14: claim C3 — cross-package visibility of inherited object lemmas.

The first half of the claim — copied if and only if exportedFrom holds,
with the stated enumeration of cases — is exactly what inheritLemmas does.
The second half — "facts keyed by objects belonging to imported (other)
packages are never propagated" — is false: exportedFrom deliberately
returns true for methods, fields, type names and constants regardless of
their owning package (its own comment says such objects "find there way
into the API"), so their facts do cross the boundary.
-/

theorem insertObjL_fresh (m : List (Object × Lemma)) (o : Object) (l : Lemma)
    (h : ∀ q ∈ m, (q : Object × Lemma).1.oid ≠ o.oid) :
    insertObjL m o l = m ++ [(o, l)] := by
  rw [insertObjL]
  rw [if_neg (by
    simp only [List.any_eq_true, decide_eq_true_eq]
    rintro ⟨q, hq, hc⟩
    exact h q hq hc)]

theorem inheritObjLemmas_filter (pp : String) :
    ∀ (dep act : List (Object × Lemma)),
      (dep.map (fun q => q.1.oid)).Nodup →
      (∀ q ∈ dep, ∀ r ∈ act, (q : Object × Lemma).1.oid ≠ (r : Object × Lemma).1.oid) →
      inheritObjLemmas pp dep act =
        act ++ dep.filter (fun ol => exportedFrom ol.1 pp) := by
  intro dep
  induction dep with
  | nil => intro act _ _; rw [inheritObjLemmas]; simp
  | cons ol rest ih =>
      intro act hnd hdisj
      simp only [List.map_cons, List.nodup_cons] at hnd
      rw [inheritObjLemmas]
      by_cases he : exportedFrom ol.1 pp = true
      · rw [if_pos he]
        have hfresh : insertObjL act ol.1 ol.2 = act ++ [(ol.1, ol.2)] :=
          insertObjL_fresh act ol.1 ol.2
            (fun q hq => fun hc =>
              (hdisj ol (List.mem_cons_self _ _) q hq) hc.symm)
        rw [hfresh]
        rw [ih (act ++ [(ol.1, ol.2)]) hnd.2 ?_]
        · rw [List.filter_cons_of_pos (by simpa using he)]
          simp
        · intro q hq r hr
          rcases List.mem_append.mp hr with hr | hr
          · exact hdisj q (List.mem_cons_of_mem _ hq) r hr
          · simp only [List.mem_singleton] at hr
            subst hr
            intro hc
            exact hnd.1 (hc ▸ List.mem_map_of_mem (fun q => q.1.oid) hq)
      · rw [if_neg he]
        rw [ih act hnd.2 (fun q hq r hr => hdisj q (List.mem_cons_of_mem _ hq) r hr)]
        rw [List.filter_cons_of_neg (by simpa using he)]

/-- Claim C3 (amended): a fact is copied from a vertical dependency if and
only if exportedFrom holds for its object, and exportedFrom holds exactly
for: exported functions and variables owned by the producing package,
methods (regardless of export or owner), fields (regardless of export or
owner), and type names and named constants (always). Objects of other
packages do propagate when they are methods, fields, type names or
constants; only non-method functions and non-field variables of other
packages (and labels, package names, builtins) are blocked. -/
theorem claim_c3_visibility_amended (pp : String) (dep : List (Object × Lemma))
    (o : Object) (l : Lemma)
    (hnd : (dep.map (fun q => q.1.oid)).Nodup) :
    ((o, l) ∈ inheritObjLemmas pp dep [] ↔
      ((o, l) ∈ dep ∧ exportedFrom o pp = true)) ∧
    (exportedFrom o pp = true ↔
      ((o.kind = .funcK ∧ ((isExported o.name = true ∧ o.pkgPath = some pp) ∨
          hasRecv o.ty = true)) ∨
       (o.kind = .varK ∧ ((isExported o.name = true ∧ o.pkgPath = some pp) ∨
          o.isField = true)) ∨
       o.kind = .tname ∨ o.kind = .constK)) := by
  constructor
  · rw [inheritObjLemmas_filter pp dep [] hnd (by simp)]
    simp only [List.nil_append]
    rw [List.mem_filter]
  · unfold exportedFrom
    cases hk : o.kind <;>
      simp [Bool.or_eq_true, Bool.and_eq_true, beq_iff_eq] <;> tauto

/-- An unexported method of (another) package q. -/
def mObj : Object := .mk 41 .funcK "m" (some "q") false (.signature true .basic .basic)

/-- Claim C3 counterexample: a fact keyed by an unexported method belonging
to package q is propagated across the boundary of package p, refuting the
sentence that facts keyed by objects of other packages are never
propagated: exportedFrom accepts any method. -/
theorem claim_c3_counterexample :
    mObj.pkgPath = some "q" ∧ "q" ≠ "p" ∧ exportedFrom mObj "p" = true ∧
    inheritObjLemmas "p" [(mObj, ⟨"F", 7⟩)] [] = [(mObj, ⟨"F", 7⟩)] := by
  refine ⟨rfl, by decide, rfl, ?_⟩
  rfl

/-- Claim C3 witness: the amended claim evaluated on a one-entry store
holding a fact on the foreign method m of package q. -/
theorem claim_c3_witness :
    ((mObj, (⟨"F", 7⟩ : Lemma)) ∈ inheritObjLemmas "p" [(mObj, ⟨"F", 7⟩)] [] ↔
      ((mObj, (⟨"F", 7⟩ : Lemma)) ∈ [(mObj, (⟨"F", 7⟩ : Lemma))] ∧
        exportedFrom mObj "p" = true)) ∧
    (exportedFrom mObj "p" = true ↔
      ((mObj.kind = .funcK ∧ ((isExported mObj.name = true ∧ mObj.pkgPath = some "p") ∨
          hasRecv mObj.ty = true)) ∨
       (mObj.kind = .varK ∧ ((isExported mObj.name = true ∧ mObj.pkgPath = some "p") ∨
          mObj.isField = true)) ∨
       mObj.kind = .tname ∨ mObj.kind = .constK)) :=
  claim_c3_visibility_amended "p" [(mObj, ⟨"F", 7⟩)] mObj ⟨"F", 7⟩ (by decide)

/-!
Part 15: claim C5 — vertical edges of the action graph.
-/

theorem map_fst_insertStable (x : String × Pkg) (l : List (String × Pkg)) :
    (insertStable (fun a b => a.1 < b.1) x l).map Prod.fst =
      insertStable (fun a b => a < b) x.1 (l.map Prod.fst) := by
  induction l with
  | nil => rfl
  | cons y ys ih =>
      simp only [insertStable]
      by_cases h : y.1 < x.1
      · rw [if_pos (by simpa using h), if_pos (by simpa using h)]
        simp only [List.map_cons]
        rw [ih]
      · rw [if_neg (by simpa using h), if_neg (by simpa using h)]
        simp

theorem map_fst_sortImports (l : List (String × Pkg)) :
    (sortImports l).map Prod.fst = sortStrings (l.map Prod.fst) := by
  rw [sortImports, sortStrings]
  induction l with
  | nil => rfl
  | cons x xs ih =>
      simp only [sortL, List.map_cons]
      rw [map_fst_insertStable]
      rw [ih]

/-- The dependency list that mkAction attaches to the node (a, p): the
horizontal dependencies for the required analyses, followed by the vertical
dependencies. -/
theorem mkAction_deps (a : Analysis) (p : Pkg) :
    (mkAction a p).deps =
      (a.requiresA.attach.map (fun r => mkAction r.1 p)) ++
      (if a.lemmaTypes = [] then []
       else (sortImports p.imports).attach.map (fun ip => mkAction a ip.1.2)) := by
  rw [mkAction]
  rfl

/-- Claim C5: the vertical dependencies of the action (a, p) exist if and
only if a declares at least one lemma type; when they do, there is exactly
one per direct import and their package paths are the import paths in
ascending order, appended after the horizontal dependencies. -/
theorem claim_c5_vertical_edges (a : Analysis) (p : Pkg)
    (hkeys : (p.imports.map Prod.fst).Nodup)
    (hcons : ∀ sq ∈ p.imports, (sq : String × Pkg).2.path = sq.1) :
    ((mkAction a p).deps =
      (a.requiresA.attach.map (fun r => mkAction r.1 p)) ++
      (if a.lemmaTypes = [] then []
       else (sortImports p.imports).attach.map (fun ip => mkAction a ip.1.2))) ∧
    (a.lemmaTypes = [] →
      (if a.lemmaTypes = [] then ([] : List ActionNode)
       else (sortImports p.imports).attach.map (fun ip => mkAction a ip.1.2)) = []) ∧
    (a.lemmaTypes ≠ [] →
      ((if a.lemmaTypes = [] then ([] : List ActionNode)
        else (sortImports p.imports).attach.map (fun ip => mkAction a ip.1.2)).map
          ActionNode.ppath = sortStrings (p.imports.map Prod.fst)) ∧
      ((if a.lemmaTypes = [] then ([] : List ActionNode)
        else (sortImports p.imports).attach.map (fun ip => mkAction a ip.1.2)).map
          ActionNode.ppath).Sorted (· ≤ ·) ∧
      (∀ d, d ∈ (if a.lemmaTypes = [] then ([] : List ActionNode)
        else (sortImports p.imports).attach.map (fun ip => mkAction a ip.1.2)) →
        d.aname = a.name) ∧
      (∀ s, s ∈ p.imports.map Prod.fst →
        ((if a.lemmaTypes = [] then ([] : List ActionNode)
          else (sortImports p.imports).attach.map (fun ip => mkAction a ip.1.2)).map
            ActionNode.ppath).count s = 1)) := by
  have hpaths : ∀ (hne : a.lemmaTypes ≠ []),
      ((if a.lemmaTypes = [] then ([] : List ActionNode)
        else (sortImports p.imports).attach.map (fun ip => mkAction a ip.1.2)).map
          ActionNode.ppath) = sortStrings (p.imports.map Prod.fst) := by
    intro hne
    rw [if_neg hne]
    rw [← map_fst_sortImports]
    rw [List.map_map]
    have hcomp : ∀ ip ∈ (sortImports p.imports).attach,
        (ActionNode.ppath ∘ fun ip => mkAction a ip.1.2) ip =
          (fun ip : { x // x ∈ sortImports p.imports } => ip.1.2.path) ip := by
      intro ip _
      simp only [Function.comp]
      rw [mkAction]
      rfl
    rw [List.map_congr_left hcomp]
    have h2 : ∀ ip ∈ sortImports p.imports, (ip : String × Pkg).2.path = ip.1 :=
      fun ip hip => hcons ip (sortImports_mem _ _ hip)
    calc (sortImports p.imports).attach.map (fun ip => ip.1.2.path)
        = (sortImports p.imports).map (fun ip => ip.2.path) := by
          rw [← List.attach_map_coe (sortImports p.imports) (fun ip => ip.2.path)]
      _ = (sortImports p.imports).map Prod.fst := by
          apply List.map_congr_left
          exact h2
  refine ⟨mkAction_deps a p, fun he => by rw [if_pos he], fun hne => ?_⟩
  refine ⟨hpaths hne, ?_, ?_, ?_⟩
  · rw [hpaths hne]
    exact sortStrings_sorted _
  · intro d hd
    rw [if_neg hne] at hd
    rcases List.mem_map.mp hd with ⟨ip, _, rfl⟩
    rw [mkAction]
    rfl
  · intro s hs
    rw [hpaths hne]
    have hperm := sortStrings_perm (p.imports.map Prod.fst)
    rw [hperm.count_eq]
    exact List.count_eq_one_of_mem hkeys hs

/-- Concrete analysis and package: analysis f declares one lemma type and
requires analysis g; package p imports b and a (in that order). -/
def gAnalysis : Analysis := .mk "g" [] [] false

def fAnalysis : Analysis := .mk "f" ["F"] [gAnalysis] false

def aPkg : Pkg := .mk "a" []

def bPkg : Pkg := .mk "b" []

def pPkg : Pkg := .mk "p" [("b", bPkg), ("a", aPkg)]

/-- Claim C5 witness: the vertical-edge characterization evaluated on the
concrete graph; imports b, a are visited in ascending order a, b. -/
theorem claim_c5_witness :
    ((mkAction fAnalysis pPkg).deps =
      (fAnalysis.requiresA.attach.map (fun r => mkAction r.1 pPkg)) ++
      (if fAnalysis.lemmaTypes = [] then []
       else (sortImports pPkg.imports).attach.map (fun ip => mkAction fAnalysis ip.1.2))) ∧
    (fAnalysis.lemmaTypes = [] →
      (if fAnalysis.lemmaTypes = [] then ([] : List ActionNode)
       else (sortImports pPkg.imports).attach.map (fun ip => mkAction fAnalysis ip.1.2)) = []) ∧
    (fAnalysis.lemmaTypes ≠ [] →
      ((if fAnalysis.lemmaTypes = [] then ([] : List ActionNode)
        else (sortImports pPkg.imports).attach.map (fun ip => mkAction fAnalysis ip.1.2)).map
          ActionNode.ppath = sortStrings (pPkg.imports.map Prod.fst)) ∧
      ((if fAnalysis.lemmaTypes = [] then ([] : List ActionNode)
        else (sortImports pPkg.imports).attach.map (fun ip => mkAction fAnalysis ip.1.2)).map
          ActionNode.ppath).Sorted (· ≤ ·) ∧
      (∀ d, d ∈ (if fAnalysis.lemmaTypes = [] then ([] : List ActionNode)
        else (sortImports pPkg.imports).attach.map (fun ip => mkAction fAnalysis ip.1.2)) →
        d.aname = fAnalysis.name) ∧
      (∀ s, s ∈ pPkg.imports.map Prod.fst →
        ((if fAnalysis.lemmaTypes = [] then ([] : List ActionNode)
          else (sortImports pPkg.imports).attach.map (fun ip => mkAction fAnalysis ip.1.2)).map
            ActionNode.ppath).count s = 1)) :=
  claim_c5_vertical_edges fAnalysis pPkg (by decide)
    (by
      intro sq hsq
      rcases List.mem_cons.mp hsq with rfl | hsq
      · rfl
      · rcases List.mem_cons.mp hsq with rfl | hsq
        · rfl
        · exact absurd hsq (by simp))

/-!
Part 16: the compile-protocol driver's fact file pipeline (doctor:
gobLemma, lemmaSet, readLemmas, writeLemmas).

A serialized record (gobLemma) holds an object path or a package path and
the typed lemma value. The in-memory lemmaSet is a map keyed by
(object-pointer, package path, reflected type); object pointers are oids,
reflected types are type names, and the Go map is an association list
updated by replace-or-append.
-/

structure GobLemma where
  object : String
  pkgPath : String
  lem : Lemma
deriving DecidableEq, Repr

structure LemKey where
  kobj : Option Object
  kpkg : String
  kty : String

def oidOf : Option Object → Option Nat
  | none => none
  | some o => some o.oid

def keyEq (a b : LemKey) : Bool :=
  oidOf a.kobj == oidOf b.kobj && a.kpkg == b.kpkg && a.kty == b.kty

def insertKey (m : List (LemKey × Lemma)) (k : LemKey) (l : Lemma) :
    List (LemKey × Lemma) :=
  if m.any (fun p => keyEq p.1 k) then
    m.map (fun p => if keyEq p.1 k then (k, l) else p)
  else m ++ [(k, l)]

/-- The record loop of readLemmas for one imported package's fact file:
package-keyed records are inserted directly; object-keyed records are
resolved with FindObject against the import, silently skipped when that
fails with an error, and crash the driver when FindObject panics. -/
def readRecords (imp : Package) :
    List GobLemma → List (LemKey × Lemma) → Except String (List (LemKey × Lemma))
  | [], m => .ok m
  | r :: rs, m =>
      if r.pkgPath ≠ "" then
        readRecords imp rs (insertKey m ⟨none, r.pkgPath, r.lem.tyName⟩ r.lem)
      else
        match FindObject imp r.object with
        | .ok o => readRecords imp rs (insertKey m ⟨some o, "", r.lem.tyName⟩ r.lem)
        | .err _ => readRecords imp rs m
        | .panics msg => .error msg

/-- readLemmas (doctor): fold the record loop over the direct imports that
have a fact file in the configuration map. -/
def readLemmas (inputFiles : List (String × List GobLemma)) :
    List Package → List (LemKey × Lemma) → Except String (List (LemKey × Lemma))
  | [], m => .ok m
  | imp :: rest, m =>
      match inputFiles.lookup imp.path with
      | none => readLemmas inputFiles rest m
      | some file =>
          match readRecords imp file m with
          | .ok m2 => readLemmas inputFiles rest m2
          | .error e => .error e

/-- The gathering loop of writeLemmas (doctor): an object-keyed entry whose
object Of cannot encode is silently discarded; every other entry yields
exactly one record. -/
def gatherRecords (env : List Package) :
    List (LemKey × Lemma) → List GobLemma
  | [] => []
  | (k, l) :: rest =>
      match k.kobj with
      | some o =>
          (match Of env o with
           | .error _ => gatherRecords env rest
           | .ok path => { object := path, pkgPath := "", lem := l } :: gatherRecords env rest)
      | none => { object := "", pkgPath := k.kpkg, lem := l } :: gatherRecords env rest

/-- The comparator of writeLemmas' sort.Slice: by Object string, then by
the reflected type name; ties — in particular any two package-keyed
records of the same lemma type — compare equal. -/
def goLess (x y : GobLemma) : Bool :=
  if x.object ≠ y.object then decide (x.object < y.object)
  else if x.lem.tyName ≠ y.lem.tyName then decide (x.lem.tyName < y.lem.tyName)
  else false

/-- writeLemmas (doctor): gather the surviving records and sort them with
goLess; the gob encoding of the resulting list is the fact file. -/
def writeLemmas (env : List Package) (m : List (LemKey × Lemma)) : List GobLemma :=
  sortL goLess (gatherRecords env m)

/-!
Part 17: claims C6 (fact-file determinism), C7 (writer-side filtering) and
C10 (cumulative fact files).
-/

def c6e1 : LemKey × Lemma := (⟨none, "a", "F"⟩, ⟨"F", 1⟩)

def c6e2 : LemKey × Lemma := (⟨none, "b", "F"⟩, ⟨"F", 2⟩)

def c6r1 : GobLemma := ⟨"", "a", ⟨"F", 1⟩⟩

def c6r2 : GobLemma := ⟨"", "b", ⟨"F", 2⟩⟩

/-- Claim C6 evaluated at the failing input: two package-keyed lemmas of
the same lemma type on different packages. The sort comparator of
writeLemmas compares only (Object, type name); both records have Object ""
and type "F", so they tie, and the output order is whatever order the map
iteration produced — the two iteration orders of the same fact set yield
different record sequences, hence different fact-file bytes, contradicting
the code's own "for determinism" comment and the specified property P4. -/
theorem claim_c6_nondeterminism :
    ([c6e1, c6e2].Perm [c6e2, c6e1]) ∧
    writeLemmas [] [c6e1, c6e2] = [c6r1, c6r2] ∧
    writeLemmas [] [c6e2, c6e1] = [c6r2, c6r1] ∧
    [c6r1, c6r2] ≠ [c6r2, c6r1] := by
  refine ⟨List.Perm.swap c6e2 c6e1 [], rfl, rfl, by decide⟩

/-- Claim C7: in the gathering loop of the fact writer, an object-keyed
entry whose object the encoder cannot encode contributes no record and no
error; an entry whose object encodes to a path contributes exactly one
record carrying that path. (writeLemmas is the sorted permutation of these
records, so the same holds for the written file.) -/
theorem claim_c7_writer_filtering (env : List Package) (k : LemKey) (o : Object)
    (l : Lemma) (rest : List (LemKey × Lemma)) (hk : k.kobj = some o) :
    (∀ msg, Of env o = .error msg →
      gatherRecords env ((k, l) :: rest) = gatherRecords env rest) ∧
    (∀ path, Of env o = .ok path →
      gatherRecords env ((k, l) :: rest) =
        ⟨path, "", l⟩ :: gatherRecords env rest) := by
  constructor
  · intro msg hOf
    rw [gatherRecords]
    rw [hk]
    simp only
    rw [hOf]
  · intro path hOf
    rw [gatherRecords]
    rw [hk]
    simp only
    rw [hOf]

/-- Claim C7 witness: one encodable object (the field x of package p, path
"T.!underlying.p.x") yields exactly one record; one non-encodable object
(a universe builtin) yields none. -/
theorem claim_c7_witness :
    gatherRecords cEnv [(⟨some cObjX, "", "F"⟩, ⟨"F", 3⟩)] =
      [⟨"T.!underlying.p.x", "", ⟨"F", 3⟩⟩] ∧
    gatherRecords cEnv [(⟨some uObj, "", "F"⟩, ⟨"F", 3⟩)] = [] := by
  constructor
  · have h := (claim_c7_writer_filtering cEnv ⟨some cObjX, "", "F"⟩ cObjX
      ⟨"F", 3⟩ [] rfl).2 "T.!underlying.p.x" (by simp only [Of, cObjX_pathOf]; rfl)
    rw [h]
    rfl
  · have h := (claim_c7_writer_filtering cEnv ⟨some uObj, "", "F"⟩ uObj
      ⟨"F", 3⟩ [] rfl).1 "universal objects have no path" (by rw [Of, pathOf]; rfl)
    rw [h]
    rfl

/-!
C10: the driver writes the same lemmaSet that readLemmas populated, after
the Run phase added its own facts through the setters. The setters of the
doctor driver only insert keys for own-package objects (setObj panics on
any other) and for the own package path (setPkg), so a key that survived
reading is preserved whenever it differs from every key the run inserts;
the written file then contains its record provided — for object-keyed
facts — the writer can re-encode the object (the C7 filter). The claim
misses that last qualifier; the counterexample exploits it.
-/

inductive RunOp where
  | setObjOp (o : Object) (l : Lemma)
  | setPkgOp (l : Lemma)

/-- The effect on the lemmaSet of the sequence of successful setter calls
performed by the Run phase of the doctor driver. -/
def applyRunOps (ownPath : String) : List RunOp → List (LemKey × Lemma) → List (LemKey × Lemma)
  | [], m => m
  | .setObjOp o l :: rest, m =>
      applyRunOps ownPath rest (insertKey m ⟨some o, "", l.tyName⟩ l)
  | .setPkgOp l :: rest, m =>
      applyRunOps ownPath rest (insertKey m ⟨none, ownPath, l.tyName⟩ l)

theorem insertKey_mem_preserve (m : List (LemKey × Lemma)) (k : LemKey) (l : Lemma)
    (k2 : LemKey) (l2 : Lemma) (h : (k, l) ∈ m) (hne : keyEq k k2 = false) :
    (k, l) ∈ insertKey m k2 l2 := by
  rw [insertKey]
  by_cases ha : m.any (fun p => keyEq p.1 k2) = true
  · rw [if_pos ha]
    refine List.mem_map.mpr ⟨(k, l), h, ?_⟩
    simp [hne]
  · rw [if_neg ha]
    exact List.mem_append_left _ h

theorem applyRunOps_mem_preserve (ownPath : String) :
    ∀ (ops : List RunOp) (m : List (LemKey × Lemma)) (k : LemKey) (l : Lemma),
      (k, l) ∈ m →
      (∀ o2 l2, RunOp.setObjOp o2 l2 ∈ ops → keyEq k ⟨some o2, "", l2.tyName⟩ = false) →
      (∀ l2, RunOp.setPkgOp l2 ∈ ops → keyEq k ⟨none, ownPath, l2.tyName⟩ = false) →
      (k, l) ∈ applyRunOps ownPath ops m := by
  intro ops
  induction ops with
  | nil => intro m k l hm _ _; rw [applyRunOps]; exact hm
  | cons op rest ih =>
      intro m k l hm hko hkp
      cases op with
      | setObjOp o2 l2 =>
          rw [applyRunOps]
          refine ih _ k l ?_
            (fun o3 l3 h3 => hko o3 l3 (List.mem_cons_of_mem _ h3))
            (fun l3 h3 => hkp l3 (List.mem_cons_of_mem _ h3))
          exact insertKey_mem_preserve m k l _ l2 hm
            (hko o2 l2 (List.mem_cons_self _ _))
      | setPkgOp l2 =>
          rw [applyRunOps]
          refine ih _ k l ?_
            (fun o3 l3 h3 => hko o3 l3 (List.mem_cons_of_mem _ h3))
            (fun l3 h3 => hkp l3 (List.mem_cons_of_mem _ h3))
          exact insertKey_mem_preserve m k l _ l2 hm
            (hkp l2 (List.mem_cons_self _ _))

theorem gatherRecords_mem_obj (env : List Package) :
    ∀ (mm : List (LemKey × Lemma)) (k : LemKey) (l : Lemma) (o : Object)
      (path : String),
      (k, l) ∈ mm → k.kobj = some o → Of env o = .ok path →
      (⟨path, "", l⟩ : GobLemma) ∈ gatherRecords env mm := by
  intro mm
  induction mm with
  | nil => intro k l o path hm _ _; simp at hm
  | cons hd tl ih =>
      intro k l o path hm hk hOf
      obtain ⟨k2, l2⟩ := hd
      rcases List.mem_cons.mp hm with heq | hm2
      · obtain ⟨rfl, rfl⟩ := Prod.mk.injEq .. ▸ And.intro (congrArg Prod.fst heq) (congrArg Prod.snd heq)
        rw [gatherRecords, hk]
        simp only
        rw [hOf]
        exact List.mem_cons_self _ _
      · have hmem := ih k l o path hm2 hk hOf
        rw [gatherRecords]
        cases hk2 : k2.kobj with
        | some o2 =>
            simp only
            cases hOf2 : Of env o2 with
            | error m2 => exact hmem
            | ok p2 => exact List.mem_cons_of_mem _ hmem
        | none => exact List.mem_cons_of_mem _ hmem

theorem gatherRecords_mem_pkg (env : List Package) :
    ∀ (mm : List (LemKey × Lemma)) (k : LemKey) (l : Lemma),
      (k, l) ∈ mm → k.kobj = none →
      (⟨"", k.kpkg, l⟩ : GobLemma) ∈ gatherRecords env mm := by
  intro mm
  induction mm with
  | nil => intro k l hm _; simp at hm
  | cons hd tl ih =>
      intro k l hm hk
      obtain ⟨k2, l2⟩ := hd
      rcases List.mem_cons.mp hm with heq | hm2
      · obtain ⟨rfl, rfl⟩ := Prod.mk.injEq .. ▸ And.intro (congrArg Prod.fst heq) (congrArg Prod.snd heq)
        rw [gatherRecords, hk]
        exact List.mem_cons_self _ _
      · have hmem := ih k l hm2 hk
        rw [gatherRecords]
        cases hk2 : k2.kobj with
        | some o2 =>
            simp only
            cases hOf2 : Of env o2 with
            | error m2 => exact hmem
            | ok p2 => exact List.mem_cons_of_mem _ hmem
        | none => exact List.mem_cons_of_mem _ hmem

theorem writeLemmas_mem (env : List Package) (m : List (LemKey × Lemma))
    (r : GobLemma) (h : r ∈ gatherRecords env m) : r ∈ writeLemmas env m := by
  rw [writeLemmas]
  exact (sortL_perm goLess (gatherRecords env m)).mem_iff.mpr h

/-- Claim C10 (amended): every fact that survived reading the imports' fact
files — resolved object or package key — lands in the same lemmaSet that
writeLemmas later serializes, and therefore appears in the written fact
file provided its key is not overwritten by the run phase (the setters can
only touch own-package keys) and, for object-keyed facts, provided the
writer can re-encode the object with Of; so fact files are cumulative up
to the writer-side visibility filter. -/
theorem claim_c10_cumulative_amended
    (env : List Package) (files : List (String × List GobLemma))
    (imports : List Package) (ownPath : String) (ops : List RunOp)
    (m : List (LemKey × Lemma)) (k : LemKey) (l : Lemma)
    (hread : readLemmas files imports [] = .ok m)
    (hmem : (k, l) ∈ m)
    (hko : ∀ o2 l2, RunOp.setObjOp o2 l2 ∈ ops →
      keyEq k ⟨some o2, "", l2.tyName⟩ = false)
    (hkp : ∀ l2, RunOp.setPkgOp l2 ∈ ops →
      keyEq k ⟨none, ownPath, l2.tyName⟩ = false) :
    (∀ o path, k.kobj = some o → Of env o = .ok path →
      (⟨path, "", l⟩ : GobLemma) ∈ writeLemmas env (applyRunOps ownPath ops m)) ∧
    (k.kobj = none →
      (⟨"", k.kpkg, l⟩ : GobLemma) ∈ writeLemmas env (applyRunOps ownPath ops m)) := by
  have hpres : (k, l) ∈ applyRunOps ownPath ops m :=
    applyRunOps_mem_preserve ownPath ops m k l hmem hko hkp
  constructor
  · intro o path hk hOf
    exact writeLemmas_mem env _ _ (gatherRecords_mem_obj env _ k l o path hpres hk hOf)
  · intro hk
    exact writeLemmas_mem env _ _ (gatherRecords_mem_pkg env _ k l hpres hk)

/-- Claim C10 witness: a package-keyed fact (package x, type L) read from
the fact file of import p survives an empty run phase and appears in the
written file. -/
theorem claim_c10_witness :
    (⟨"", "x", ⟨"L", 5⟩⟩ : GobLemma) ∈
      writeLemmas [] (applyRunOps "p" [] [(⟨none, "x", "L"⟩, ⟨"L", 5⟩)]) :=
  (claim_c10_cumulative_amended [] [("p", [⟨"", "x", ⟨"L", 5⟩⟩])] [cPkg] "p" []
    [(⟨none, "x", "L"⟩, ⟨"L", 5⟩)] ⟨none, "x", "L"⟩ ⟨"L", 5⟩
    (by rfl) (List.mem_cons_self _ _)
    (by intro o2 l2 h2; simp at h2) (by intro l2 h2; simp at h2)).2 rfl

/-- The scene of the C10 counterexample: import b declares
type T struct with the embedded exported field F owned by package q, whose
own scope is empty, so the field resolves on read but cannot be re-encoded
on write. -/
def fqObj : Object := .mk 22 .varK "F" (some "q") true .basic

def tbObj : Object := .mk 21 .tname "T" (some "b") false (.named [] (.struct [fqObj]))

def b2Pkg : Package := ⟨"b", [tbObj]⟩

def qPkg : Package := ⟨"q", []⟩

def c10env : List Package := [b2Pkg, qPkg]

def c10files : List (String × List GobLemma) := [("b", [⟨"T.!underlying.F", "", ⟨"L", 5⟩⟩])]

theorem fq_findObject : FindObject b2Pkg "T.!underlying.F" = .ok fqObj := by
  have hp : parse "T.!underlying.F" =
      .ok [PElem.str "T", PElem.str "!underlying", PElem.str "F"] := by rfl
  rw [FindObject, hp]
  simp only [lookupScope, b2Pkg, tbObj]
  simp [findD, Object.ty, Object.idStr, Object.name, Object.pkgPath, goId,
    isExported, isUpperB, opUnderlying, List.find?, fqObj]
  rfl

theorem fq_Of_error : Of c10env fqObj = .error "cannot find path for object" := by
  simp [Of, pathOf, c10env, lookupPkg, b2Pkg, qPkg, fqObj, tbObj, lookupScope,
    checkKind, Object.kind, Object.name, Object.oid, Object.pkgPath,
    Object.isField, Object.ty, scopeNames, sortStrings, sortL, insertStable,
    firstPass, tryNamedEntry, nontypesOf, secondPass]

/-- Claim C10 counterexample: a record read from import b's fact file whose
object resolves (the field F, owned by foreign package q) survives reading
and sits in the lemmaSet, yet the written fact file is empty, because the
writer cannot re-encode F (q's scope does not reach it): a fact that
survived reading is not contained in the written file. -/
theorem claim_c10_counterexample :
    readLemmas c10files [b2Pkg] [] =
      .ok [(⟨some fqObj, "", "L"⟩, ⟨"L", 5⟩)] ∧
    writeLemmas c10env [(⟨some fqObj, "", "L"⟩, ⟨"L", 5⟩)] = [] := by
  constructor
  · rw [readLemmas]
    have hlk : c10files.lookup b2Pkg.path = some [⟨"T.!underlying.F", "", ⟨"L", 5⟩⟩] := by rfl
    rw [hlk]
    simp only
    rw [readRecords]
    show (match (match FindObject b2Pkg "T.!underlying.F" with
        | .ok o => readRecords b2Pkg [] (insertKey [] ⟨some o, "", "L"⟩ ⟨"L", 5⟩)
        | .err _ => readRecords b2Pkg [] []
        | .panics msg => Except.error msg) with
      | Except.ok m2 => readLemmas c10files [] m2
      | Except.error e => Except.error e) = .ok [(⟨some fqObj, "", "L"⟩, ⟨"L", 5⟩)]
    rw [fq_findObject]
    rfl
  · rw [writeLemmas, gatherRecords]
    simp only
    rw [fq_Of_error]
    rfl

end Doctor
